import Mathlib

/-!
# goroute: virtual-host probing, request task and dispatcher

A shallow embedding of `main.go`.  Go strings are embedded as Lean strings; where the Go
code inspects single bytes (digit tests, header-name bytes) the embedding inspects
characters: every byte of a multi-byte character is `≥ 0x80` and takes the same branch
of those tests as the character itself.  Lengths that the Go code measures in bytes are
measured with `String.utf8ByteSize`.

The behaviour of the Go standard library that `main.go` relies on is either embedded
(`strconv.Atoi`, `http.Header.Set/Get`, `textproto.CanonicalMIMEHeaderKey`,
`http.NewRequest`) or, where it is the outside world (URL parsing, the network, the file
system, the JSON decoder), taken as a parameter.
-/

namespace Goroute

/-! ## Go maps with string keys -/

/-- Value stored under `k`, if any (`v, ok := m[k]`). -/
def mapLookup {β : Type} (k : String) : List (String × β) → Option β
  | [] => none
  | (k', v) :: m => if k' = k then some v else mapLookup k m

/-- Assignment `m[k] = v`: replaces the entry of `k` when present, adds one otherwise. -/
def mapAssign {β : Type} (k : String) (v : β) : List (String × β) → List (String × β)
  | [] => [(k, v)]
  | (k', v') :: m => if k' = k then (k, v) :: m else (k', v') :: mapAssign k v m

/-! ## strconv -/

/-- Size in bits of Go's `int` on the target platform (`strconv.IntSize`). -/
inductive Arch where
  | bits32
  | bits64
  deriving DecidableEq, Repr

/-- Value of `strconv.IntSize`. -/
def Arch.intSize : Arch → Nat
  | .bits32 => 32
  | .bits64 => 64

/-- The two error kinds of `strconv.NumError` (`ErrSyntax`, `ErrRange`). -/
inductive NumError where
  | ErrSyntax
  | ErrRange
  deriving DecidableEq, Repr

/-- Largest `uint64`. -/
def maxUint64 : Nat := 2 ^ 64 - 1

/-- Helper `lower(c)` of strconv: `c | ('x' - 'X')`. -/
def lower (c : Char) : Nat := c.toNat ||| 0x20

/-- Main loop of `strconv.ParseUint(s, 10, bitSize)` over the remaining bytes, `n` being
the value accumulated so far in a `uint64`.  A range error returns at once, without
looking at the rest of the text. -/
def parseUintLoop (maxVal : Nat) : List Char → Nat → Nat × Option NumError
  | [], n => (n, none)
  | c :: cs, n =>
    let digit : Option Nat :=
      if '0' ≤ c ∧ c ≤ '9' then some (c.toNat - '0'.toNat)
      else if 'a'.toNat ≤ lower c ∧ lower c ≤ 'z'.toNat then some (lower c - 'a'.toNat + 10)
      else none
    match digit with
    | none => (0, some .ErrSyntax)
    | some d =>
      if d ≥ 10 then (0, some .ErrSyntax)
      else if n ≥ maxUint64 / 10 + 1 then (maxVal, some .ErrRange)
      else
        let n10 := (n * 10) % 2 ^ 64
        let n1 := (n10 + d) % 2 ^ 64
        if n1 < n10 ∨ n1 > maxVal then (maxVal, some .ErrRange)
        else parseUintLoop maxVal cs n1

/-- Embedding of `strconv.ParseUint(s, 10, 0)`: base 10, `bitSize` 0 meaning `IntSize`. -/
def ParseUint (arch : Arch) (s : List Char) : Nat × Option NumError :=
  if s = [] then (0, some .ErrSyntax)
  else
    let maxVal := ((2 ^ arch.intSize) % 2 ^ 64 + 2 ^ 64 - 1) % 2 ^ 64
    parseUintLoop maxVal s 0

/-- Embedding of `strconv.ParseInt(s, 10, 0)`.  On a range error the result is the
integer of largest magnitude of the sign of the text. -/
def ParseInt (arch : Arch) (s : List Char) : Int × Option NumError :=
  if s = [] then (0, some .ErrSyntax)
  else
    let neg : Bool := s.head? = some '-'
    let s1 := if s.head? = some '+' then s.tail else if s.head? = some '-' then s.tail else s
    let r := ParseUint arch s1
    if r.2 = some .ErrSyntax then (0, some .ErrSyntax)
    else
      let cutoff : Nat := 2 ^ (arch.intSize - 1)
      if neg = false ∧ r.1 ≥ cutoff then (((cutoff - 1 : Nat) : Int), some .ErrRange)
      else if neg = true ∧ r.1 > cutoff then (-(cutoff : Int), some .ErrRange)
      else if neg then (-(r.1 : Int), none)
      else ((r.1 : Int), none)

/-- Digit loop of the fast path of `strconv.Atoi`: `none` on a byte that is not a
decimal digit. -/
def atoiFastLoop : List Char → Int → Option Int
  | [], n => some n
  | c :: cs, n =>
    if '0' ≤ c ∧ c ≤ '9' then atoiFastLoop cs (n * 10 + ((c.toNat - '0'.toNat : Nat) : Int))
    else none

/-- Embedding of `strconv.Atoi`: the value returned together with the kind of error, if
any.  Short texts take the fast path, the others go through `ParseInt(s, 10, 0)`. -/
def Atoi (arch : Arch) (s : String) : Int × Option NumError :=
  let sLen := s.utf8ByteSize
  if (arch.intSize = 32 ∧ (0 < sLen ∧ sLen < 10)) ∨
      (arch.intSize = 64 ∧ (0 < sLen ∧ sLen < 19)) then
    let s0 := s.data
    let signed := s0.head? = some '-' ∨ s0.head? = some '+'
    let s1 := if signed then s0.tail else s0
    if signed ∧ s1.length < 1 then (0, some .ErrSyntax)
    else
      match atoiFastLoop s1 0 with
      | none => (0, some .ErrSyntax)
      | some n => if s0.head? = some '-' then (-n, none) else (n, none)
  else ParseInt arch s.data

/-- Decimal value of a list of digit characters, the first being the most significant. -/
def digitsValue : List Char → Nat → Nat
  | [], n => n
  | c :: cs, n => digitsValue cs (n * 10 + (c.toNat - '0'.toNat))

/-! ## net/textproto and net/http headers -/

/-- Bytes allowed in a header field name (`textproto.validHeaderFieldByte`): letters,
digits and the punctuation of an RFC 7230 token, given here by code point. -/
def validHeaderFieldByte (c : Char) : Bool :=
  c.isAlphanum ||
    [33, 35, 36, 37, 38, 39, 42, 43, 45, 46, 94, 95, 96, 124, 126].contains c.toNat

/-- Second loop of `textproto.canonicalMIMEHeaderKey`: upper case for the first letter and
for a letter after a dash, lower case elsewhere. -/
def canonCase : Bool → List Char → List Char
  | _, [] => []
  | upper, c :: cs =>
    let c1 :=
      if upper ∧ 'a' ≤ c ∧ c ≤ 'z' then Char.ofNat (c.toNat - 32)
      else if ¬ upper ∧ 'A' ≤ c ∧ c ≤ 'Z' then Char.ofNat (c.toNat + 32)
      else c
    c1 :: canonCase (c1 = '-') cs

/-- First loop of `textproto.canonicalMIMEHeaderKey`: `none` when a byte other than a
space is not allowed in a field name, otherwise whether a space was seen. -/
def canonScan : List Char → Bool → Option Bool
  | [], noCanon => some noCanon
  | c :: cs, noCanon =>
    if validHeaderFieldByte c then canonScan cs noCanon
    else if c = ' ' then canonScan cs true
    else none

/-- Embedding of `textproto.canonicalMIMEHeaderKey` (its string result). -/
def canonicalMIMEHeaderKey (a : List Char) : List Char :=
  match canonScan a false with
  | none => a
  | some true => a
  | some false => canonCase true a

/-- Quick check of `textproto.CanonicalMIMEHeaderKey` over the remaining bytes `rest` of
the name `s`. -/
def canonQuick (s : List Char) : List Char → Bool → List Char
  | [], _ => s
  | c :: cs, upper =>
    if ¬ validHeaderFieldByte c then s
    else if upper ∧ 'a' ≤ c ∧ c ≤ 'z' then canonicalMIMEHeaderKey s
    else if ¬ upper ∧ 'A' ≤ c ∧ c ≤ 'Z' then canonicalMIMEHeaderKey s
    else canonQuick s cs (c = '-')

/-- Embedding of `textproto.CanonicalMIMEHeaderKey`. -/
def CanonicalMIMEHeaderKey (s : String) : String :=
  ⟨canonQuick s.data s.data true⟩

/-- The type `http.Header`, a `map[string][]string`. -/
abbrev Header := List (String × List String)

/-- Method `Header.Set`: `h[CanonicalMIMEHeaderKey(key)] = []string{value}`. -/
def Header.Set (h : Header) (key value : String) : Header :=
  mapAssign (CanonicalMIMEHeaderKey key) [value] h

/-- Method `Header.Get`: first value stored under the canonical form of `key`, or the
empty string. -/
def Header.Get (h : Header) (key : String) : String :=
  match mapLookup (CanonicalMIMEHeaderKey key) h with
  | some (v :: _) => v
  | _ => ""

/-- A header name as HTTP compares names, without regard to letter case: the name with
its ASCII letters in lower case. -/
def foldName (s : String) : String := ⟨s.data.map Char.toLower⟩

/-! ## Requests, responses and the world around `makeRequest` -/

/-- The type `Headers` of `main.go`, a `map[string]string`.  The list gives the entries
in the order in which a `range` loop happens to visit them; a Go map has each key once. -/
abbrev Headers := List (String × String)

/-- Fields of `url.URL`. -/
structure URL where
  Scheme : String
  Host : String
  Path : String
  RawQuery : String
  deriving DecidableEq, Repr

/-- Fields of `http.Request` that `makeRequest` sets. -/
structure Request where
  Method : String
  URL : URL
  Host : String
  Header : Header
  deriving DecidableEq, Repr

/-- Fields of `http.Response` that `makeRequest` reads. -/
structure Response where
  Status : String
  StatusCode : Int
  Header : Header
  deriving DecidableEq, Repr

/-- What the platform decides: the size of `int` and the result of parsing a request
target (`url.Parse` as called by `http.NewRequest`, empty port removed), an error text on
failure. -/
structure Platform where
  arch : Arch
  urlParse : String → Except String URL

/-- The shared `*http.Client`: `Do` answers a request with a response or with the text of
a transport error. -/
structure Client where
  Do : Request → Except String Response

/-- The package-level variables read by `makeRequest`. -/
structure Flags where
  verbose : Bool
  filterContentLength : Int

/-- Embedding of `http.NewRequest(method, url, nil)` for a valid method. -/
def NewRequest (p : Platform) (method url : String) : Except String Request :=
  match p.urlParse url with
  | .error err => .error err
  | .ok u => .ok { Method := method, URL := u, Host := u.Host, Header := [] }

/-- Lines 130-133 of `makeRequest`: the virtual-host override followed by the loop that
sets every entry of `headers` on the request. -/
def prepareRequest (req : Request) (domain : String) (headers : Headers) : Request :=
  let req := { req with Host := domain }
  headers.foldl (fun r kv => { r with Header := r.Header.Set kv.1 kv.2 }) req

/-- Lines 142-146 of `makeRequest`: the integer compared against the threshold, computed
from the text of the `Content-Length` response header.  The error of `Atoi` is dropped. -/
def contentLengthInt (arch : Arch) (contentLength : String) : Int :=
  if contentLength ≠ "" then (Atoi arch contentLength).1 else 0

/-- Embedding of `makeRequest`: the messages the invocation writes to `ch`, in order.
The deferred `wg.Done()` runs once on every path and is accounted for by the
dispatcher below. -/
def makeRequest (p : Platform) (flags : Flags) (client : Client) (host domain : String)
    (headers : Headers) : List String :=
  match NewRequest p "GET" host with
  | .error err => ["Failed to create request for " ++ host ++ ": " ++ err]
  | .ok req =>
    let req := prepareRequest req domain headers
    match client.Do req with
    | .error err => ["Request to " ++ host ++ " failed: " ++ err]
    | .ok resp =>
      let contentLength := resp.Header.Get "Content-Length"
      let contentLengthInt := contentLengthInt p.arch contentLength
      if flags.filterContentLength > 0 ∧ contentLengthInt < flags.filterContentLength then
        []
      else if flags.verbose then
        ["Host: " ++ host ++ " Domain: " ++ domain ++ " Code: " ++ resp.Status ++
          " Content-Length: " ++ contentLength]
      else if resp.StatusCode = 200 then
        ["Host: " ++ host ++ " Domain: " ++ domain ++ " Code: " ++ resp.Status ++
          " Content-Length: " ++ contentLength]
      else []

/-! ## readHeaders -/

/-- The file system and JSON decoder as `readHeaders` sees them: `Open` gives the content
of the file at a path or the text of the error of `os.Open`; `Decode` gives the string
map that `json.NewDecoder(file).Decode(&headers)` leaves in `headers` for a file content,
or the text of its error.  A nil map and an empty map are both the empty list. -/
structure Files where
  Open : String → Except String String
  Decode : String → Except String Headers

/-- Embedding of `readHeaders`: the mapping returned and the error returned (always
`nil`). -/
def readHeaders (fs : Files) (filePath : String) : Headers × Option String :=
  if filePath = "" then
    ([("User-Agent", "Mozilla/5.0 (compatible; Googlebot/2.1; +http://www.google.com/bot.html)"),
      ("Accept-Language", "en-US,en;q=0.5")], none)
  else
    match fs.Open filePath with
    | .error _ =>
      ([("User-Agent", "Mozilla/5.0 (compatible; Googlebot/2.1; +http://www.google.com/bot.html)"),
        ("Accept-Language", "en-US,en;q=0.5")], none)
    | .ok file =>
      match fs.Decode file with
      | .error _ =>
        ([("User-Agent", "Mozilla/5.0 (compatible; Googlebot/2.1; +http://www.google.com/bot.html)"),
          ("Accept-Language", "en-US,en;q=0.5")], none)
      | .ok headers => (headers, none)

/-! ## The dispatcher of `main` -/

/-- The (host, domain) arguments of the `go makeRequest(...)` statements of the nested
loops of `main`, in the order in which the loops reach them. -/
def dispatch : List String → List String → List (String × String)
  | [], _ => []
  | host :: hosts, domains => domains.map (fun domain => (host, domain)) ++ dispatch hosts domains

/-- A goroutine started by `main`: its arguments, the channel writes it has yet to
perform, and whether its deferred `wg.Done()` has run. -/
structure Goroutine where
  host : String
  domain : String
  pending : List String
  done : Bool
  deriving DecidableEq, Repr

/-- State of the dispatch phase of `main`: the pairs the loops have yet to reach, the
goroutines started so far, the content and capacity of the buffered channel `ch`, and the
counter of the wait group. -/
structure State where
  todo : List (String × String)
  procs : List Goroutine
  ch : List String
  cap : Nat
  wg : Int
  deriving DecidableEq, Repr

/-- One atomic step of the program: `main` starts the next goroutine, goroutine `i`
performs its next channel write, or goroutine `i` returns and runs `wg.Done()`. -/
inductive Action where
  | spawn
  | send (i : Nat)
  | done (i : Nat)
  deriving DecidableEq, Repr

/-- Effect of an action, `none` when the action cannot happen in the state: a write to
a full channel blocks, a goroutine returns only after its writes. -/
def step (p : Platform) (flags : Flags) (client : Client) (headers : Headers) (s : State) :
    Action → Option State
  | .spawn =>
    match s.todo with
    | [] => none
    | (host, domain) :: rest =>
      some { s with
        todo := rest
        wg := s.wg + 1
        procs := s.procs ++
          [{ host := host, domain := domain,
             pending := makeRequest p flags client host domain headers, done := false }] }
  | .send i =>
    match s.procs[i]? with
    | none => none
    | some g =>
      match g.pending with
      | [] => none
      | msg :: rest =>
        if g.done = false ∧ s.ch.length < s.cap then
          some { s with ch := s.ch ++ [msg], procs := s.procs.set i { g with pending := rest } }
        else none
  | .done i =>
    match s.procs[i]? with
    | none => none
    | some g =>
      if g.done = false ∧ g.pending = [] then
        some { s with wg := s.wg - 1, procs := s.procs.set i { g with done := true } }
      else none

/-- Runs a schedule, a sequence of actions, from a state. -/
def exec (p : Platform) (flags : Flags) (client : Client) (headers : Headers) :
    State → List Action → Option State
  | s, [] => some s
  | s, a :: as =>
    match step p flags client headers s a with
    | none => none
    | some s1 => exec p flags client headers s1 as

/-- Value of an arithmetic result in Go's `int`: the mathematical value wrapped into the
signed range of `strconv.IntSize` bits. -/
def wrapInt (arch : Arch) (n : Nat) : Int :=
  let r := n % 2 ^ arch.intSize
  if r < 2 ^ (arch.intSize - 1) then (r : Int) else (r : Int) - ((2 ^ arch.intSize : Nat) : Int)

/-- State of `main` at line 200: the channel made with capacity `len(hosts)*len(domains)`
computed in Go's `int`, no goroutine started; `none` when the wrapped product is negative
and `make` panics.  Memory is not bounded: `make` succeeds for every other size. -/
def initState (arch : Arch) (hosts domains : List String) : Option State :=
  let size := wrapInt arch (hosts.length * domains.length)
  if size < 0 then none
  else
    some { todo := dispatch hosts domains, procs := [], ch := [], cap := size.toNat, wg := 0 }

/-- Lines 208-213 of `main`: once the loops are over and `wg.Wait()` finds the counter at
zero, the channel is closed and drained in order; `none` while `main` cannot get there. -/
def collected (s : State) : Option (List String) :=
  if s.todo = [] ∧ s.wg = 0 then some s.ch else none

/-- Lines 198-213 of `main` under a schedule of the goroutines: the messages printed by the
final loop, in order; `none` when `make` panics, when the schedule asks for a step that
cannot happen, or when it leaves `main` before the end of `wg.Wait()`. -/
def main (p : Platform) (flags : Flags) (client : Client) (headers : Headers)
    (hosts domains : List String) (sched : List Action) : Option (List String) :=
  match initState p.arch hosts domains with
  | none => none
  | some s0 =>
    match exec p flags client headers s0 sched with
    | none => none
    | some s => collected s

/-! ## Invariant of the dispatch phase -/

/-- Arguments of a goroutine. -/
def Goroutine.args (g : Goroutine) : String × String := (g.host, g.domain)

/-- What holds of every state the dispatch phase can reach: the goroutines started are
the tasks of a prefix of the loops, the rest being still to start; the messages in the channel together with those still to be written
are the messages of the started tasks; the counter of the wait group is the number of
goroutines that have not returned; a goroutine that returned has nothing left to write. -/
structure Inv (p : Platform) (flags : Flags) (client : Client) (headers : Headers)
    (hosts domains : List String) (s : State) : Prop where
  tasks_eq : dispatch hosts domains = s.procs.map Goroutine.args ++ s.todo
  msgs_perm : (s.ch ++ s.procs.flatMap (fun g => g.pending)).Perm
    ((s.procs.map Goroutine.args).flatMap
      (fun a => makeRequest p flags client a.1 a.2 headers))
  wg_eq : s.wg = ((s.procs.countP (fun g => !g.done) : Nat) : Int)
  done_empty : ∀ g ∈ s.procs, g.done = true → g.pending = []

/-- What holds of every state reached with a channel of capacity 0 when every task has
a message to write: nothing was written, no goroutine has returned, and some task is
started or still to start. -/
def Stuck (p : Platform) (flags : Flags) (client : Client) (headers : Headers)
    (s : State) : Prop :=
  s.cap = 0 ∧
  (∀ a ∈ s.todo, makeRequest p flags client a.1 a.2 headers ≠ []) ∧
  (∀ g ∈ s.procs, g.pending ≠ [] ∧ g.done = false) ∧
  s.wg = (s.procs.length : Int) ∧
  (s.todo ≠ [] ∨ s.procs ≠ [])

/-! ## Concrete worlds used to run the definitions -/

/-- The URL that the target `https://10.0.0.1` parses to. -/
def demoURL : URL := { Scheme := "https", Host := "10.0.0.1", Path := "", RawQuery := "" }

/-- A 64-bit platform on which `https://10.0.0.1` is the one well-formed target. -/
def demoPlatform : Platform :=
  { arch := .bits64
    urlParse := fun s =>
      if s = "https://10.0.0.1" then .ok demoURL
      else .error "first path segment in URL cannot contain colon" }

/-- The same platform with a 32-bit `int`. -/
def demoPlatform32 : Platform := { demoPlatform with arch := .bits32 }

/-- A client that answers every request with the same response. -/
def fixedClient (resp : Response) : Client := { Do := fun _ => .ok resp }

/-- A client whose every call fails with the same transport error. -/
def failingClient (err : String) : Client := { Do := fun _ => .error err }

/-- The default header set of `readHeaders`. -/
def defaultHeaders : Headers :=
  [("User-Agent", "Mozilla/5.0 (compatible; Googlebot/2.1; +http://www.google.com/bot.html)"),
   ("Accept-Language", "en-US,en;q=0.5")]

/-- Flags of a run with verbose off and no threshold. -/
def okFlags : Flags := { verbose := false, filterContentLength := 0 }

/-- A client that answers every request with status 200 and a Content-Length of 500. -/
def okClient : Client :=
  fixedClient { Status := "200 OK", StatusCode := 200, Header := [("Content-Length", ["500"])] }

/-- State of a one-host, two-domain run once both goroutines are started and neither has
written. -/
def demoStarted : State :=
  { todo := []
    procs :=
      [{ host := "https://10.0.0.1", domain := "a.example.com",
         pending :=
           ["Host: https://10.0.0.1 Domain: a.example.com Code: 200 OK Content-Length: 500"],
         done := false },
       { host := "https://10.0.0.1", domain := "b.example.com",
         pending :=
           ["Host: https://10.0.0.1 Domain: b.example.com Code: 200 OK Content-Length: 500"],
         done := false }]
    ch := []
    cap := 2
    wg := 2 }

/-- A file system with two header files, `empty.json` holding the empty JSON object and
`probe.json` holding an object with one member, read by a decoder that, as
`encoding/json` does, decodes the first to the empty map and the second to a map with one
entry; other texts are taken as malformed. -/
def demoFiles : Files :=
  { Open := fun path =>
      if path = "empty.json" then .ok "\x7b\x7d"
      else if path = "probe.json" then .ok "\x7b\x22X-Probe\x22:\x221\x22\x7d"
      else .error "open: no such file or directory"
    Decode := fun content =>
      if content = "\x7b\x7d" then .ok []
      else if content = "\x7b\x22X-Probe\x22:\x221\x22\x7d" then .ok [("X-Probe", "1")]
      else .error "invalid character looking for beginning of value" }

/-! ## Lemmas on `strconv.Atoi` -/

/-- A syntax error of `ParseInt` comes with the value 0. -/
theorem ParseInt_syntax_zero (arch : Arch) (s : List Char)
    (h : (ParseInt arch s).2 = some .ErrSyntax) : (ParseInt arch s).1 = 0 := by
  unfold ParseInt at h ⊢
  dsimp only at h ⊢
  split_ifs at h ⊢ <;> simp_all

/-- A syntax error of `Atoi` comes with the value 0. -/
theorem Atoi_syntax_zero (arch : Arch) (s : String)
    (h : (Atoi arch s).2 = some .ErrSyntax) : (Atoi arch s).1 = 0 := by
  unfold Atoi at h ⊢
  dsimp only at h ⊢
  split_ifs at h ⊢
  all_goals solve
    | rfl
    | exact ParseInt_syntax_zero arch s.data h
    | (cases hl : atoiFastLoop s.data.tail 0 <;> simp_all)
    | (cases hl : atoiFastLoop s.data 0 <;> simp_all)

/-- A range error of `ParseInt` comes with the largest or the smallest `int`. -/
theorem ParseInt_range_value (arch : Arch) (s : List Char)
    (h : (ParseInt arch s).2 = some .ErrRange) :
    (ParseInt arch s).1 = 2 ^ (arch.intSize - 1) - 1 ∨
      (ParseInt arch s).1 = -(2 ^ (arch.intSize - 1)) := by
  unfold ParseInt at h ⊢
  dsimp only at h ⊢
  split_ifs at h ⊢ <;> simp_all

/-- A range error of `Atoi` comes with the largest or the smallest `int`. -/
theorem Atoi_range_value (arch : Arch) (s : String)
    (h : (Atoi arch s).2 = some .ErrRange) :
    (Atoi arch s).1 = 2 ^ (arch.intSize - 1) - 1 ∨
      (Atoi arch s).1 = -(2 ^ (arch.intSize - 1)) := by
  unfold Atoi at h ⊢
  dsimp only at h ⊢
  split_ifs at h ⊢
  all_goals solve
    | exact ParseInt_range_value arch s.data h
    | (exfalso; simp at h)
    | (exfalso; cases hl : atoiFastLoop s.data.tail 0 <;> simp_all)
    | (exfalso; cases hl : atoiFastLoop s.data 0 <;> simp_all)

/-- The empty text is a syntax error for `Atoi`. -/
theorem Atoi_empty (arch : Arch) : (Atoi arch "").2 = some .ErrSyntax := by
  cases arch <;> decide

/-- The loop of `ParseUint` stops with a syntax error on a byte that is not a decimal
digit. -/
theorem parseUintLoop_not_digit (maxVal : Nat) (c : Char) (cs : List Char) (n : Nat)
    (hc : ¬ ('0' ≤ c ∧ c ≤ '9')) :
    parseUintLoop maxVal (c :: cs) n = (0, some .ErrSyntax) := by
  unfold parseUintLoop
  by_cases h1 : 97 ≤ lower c ∧ lower c ≤ 122
  · simp [hc, h1]
  · simp [hc, h1]

/-- The fast loop of `Atoi` stops on a byte that is not a decimal digit. -/
theorem atoiFastLoop_not_digit (c : Char) (cs : List Char) (n : Int)
    (hc : ¬ ('0' ≤ c ∧ c ≤ '9')) : atoiFastLoop (c :: cs) n = none := by
  simp [atoiFastLoop, hc]

/-- A text that does not start with a sign or a digit is a syntax error for `Atoi`. -/
theorem Atoi_syntax_of_not_digit (arch : Arch) (c : Char) (cs : List Char)
    (hc : ¬ ('0' ≤ c ∧ c ≤ '9')) (hplus : c ≠ '+') (hminus : c ≠ '-') :
    Atoi arch ⟨c :: cs⟩ = (0, some .ErrSyntax) := by
  unfold Atoi
  simp only [List.head?_cons, Option.some.injEq, hplus, hminus, or_self, if_false,
    atoiFastLoop_not_digit c cs 0 hc, ParseInt, ParseUint,
    parseUintLoop_not_digit _ c cs 0 hc]
  simp

/-- A sign followed by something that does not start with a digit is a syntax error for
`Atoi`. -/
theorem Atoi_syntax_of_sign_not_digit (arch : Arch) (sign c : Char) (cs : List Char)
    (hsign : sign = '+' ∨ sign = '-') (hc : ¬ ('0' ≤ c ∧ c ≤ '9')) :
    Atoi arch ⟨sign :: c :: cs⟩ = (0, some .ErrSyntax) := by
  unfold Atoi
  rcases hsign with h | h <;> subst h <;>
    simp [atoiFastLoop_not_digit c cs 0 hc, ParseInt, ParseUint,
      parseUintLoop_not_digit _ c cs 0 hc]

/-- A sign alone is a syntax error for `Atoi`. -/
theorem Atoi_syntax_of_sign_only (arch : Arch) :
    Atoi arch "+" = (0, some .ErrSyntax) ∧ Atoi arch "-" = (0, some .ErrSyntax) := by
  cases arch <;> constructor <;> decide

/-- Code points of the decimal digits. -/
theorem digit_toNat (c : Char) (h : '0' ≤ c ∧ c ≤ '9') : 48 ≤ c.toNat ∧ c.toNat ≤ 57 := by
  obtain ⟨h1, h2⟩ := h
  rw [Char.le_def, UInt32.le_def] at h1 h2
  exact ⟨h1, h2⟩

/-- A text has at least one byte per character. -/
theorem length_le_utf8ByteSize_go (cs : List Char) : cs.length ≤ String.utf8ByteSize.go cs := by
  induction cs with
  | nil => simp [String.utf8ByteSize.go]
  | cons c cs ih =>
    have := Char.utf8Size_pos c
    simp only [String.utf8ByteSize.go, List.length_cons]
    omega

/-- Reading more digits does not decrease the value. -/
theorem digitsValue_ge (cs : List Char) (n : Nat) : n ≤ digitsValue cs n := by
  induction cs generalizing n with
  | nil => exact le_refl _
  | cons c cs ih => exact le_trans (by omega) (ih _)

/-- Bound on the value of a list of digits. -/
theorem digitsValue_lt (cs : List Char) (n : Nat) (hd : ∀ c ∈ cs, '0' ≤ c ∧ c ≤ '9') :
    digitsValue cs n < (n + 1) * 10 ^ cs.length := by
  induction cs generalizing n with
  | nil => simp [digitsValue]
  | cons c cs ih =>
    have hc := digit_toNat c (hd c (List.mem_cons_self _ _))
    have h1 := ih (n * 10 + (c.toNat - '0'.toNat)) (fun x hx => hd x (List.mem_cons_of_mem _ hx))
    simp only [digitsValue, List.length_cons, pow_succ]
    have e : '0'.toNat = 48 := rfl
    rw [e] at h1 ⊢
    calc digitsValue cs (n * 10 + (c.toNat - 48))
        < (n * 10 + (c.toNat - 48) + 1) * 10 ^ cs.length := h1
      _ ≤ ((n + 1) * 10) * 10 ^ cs.length := by
          apply Nat.mul_le_mul_right
          omega
      _ = (n + 1) * (10 ^ cs.length * 10) := by ring

/-- The fast loop of `Atoi` on decimal digits computes their value. -/
theorem atoiFastLoop_digits (cs : List Char) (n : Nat) (hd : ∀ c ∈ cs, '0' ≤ c ∧ c ≤ '9') :
    atoiFastLoop cs (n : Int) = some ((digitsValue cs n : Nat) : Int) := by
  induction cs generalizing n with
  | nil => rfl
  | cons c cs ih =>
    have hc := hd c (List.mem_cons_self _ _)
    simp only [atoiFastLoop, hc, and_self, if_true, digitsValue]
    rw [← ih _ (fun x hx => hd x (List.mem_cons_of_mem _ hx))]
    push_cast
    rfl

/-- The loop of `ParseUint` on decimal digits: the value when it fits, a range error
otherwise. -/
theorem parseUintLoop_digits (maxVal : Nat) (hmax : maxVal < 2 ^ 64) (cs : List Char) (n : Nat)
    (hn : n ≤ maxVal) (hd : ∀ c ∈ cs, '0' ≤ c ∧ c ≤ '9') :
    parseUintLoop maxVal cs n =
      if digitsValue cs n ≤ maxVal then (digitsValue cs n, none)
      else (maxVal, some .ErrRange) := by
  induction cs generalizing n with
  | nil => simp [parseUintLoop, digitsValue, hn]
  | cons c cs ih =>
    have hc := hd c (List.mem_cons_self _ _)
    have hcn := digit_toNat c hc
    have hrest : ∀ x ∈ cs, '0' ≤ x ∧ x ≤ '9' := fun x hx => hd x (List.mem_cons_of_mem _ hx)
    have e : '0'.toNat = 48 := rfl
    have hge := digitsValue_ge cs (n * 10 + (c.toNat - 48))
    unfold parseUintLoop
    simp only [hc, and_self, if_true, digitsValue, e]
    have hd10 : ¬ (c.toNat - 48 ≥ 10) := by omega
    simp only [hd10, if_false]
    have hcut : maxUint64 / 10 + 1 = 1844674407370955162 := by decide
    rw [hcut]
    by_cases h1 : n ≥ 1844674407370955162
    · have : ¬ digitsValue cs (n * 10 + (c.toNat - 48)) ≤ maxVal := by
        have : (2:Nat) ^ 64 = 18446744073709551616 := by norm_num
        omega
      simp [h1, this]
    · simp only [h1, if_false]
      have hp : (2:Nat) ^ 64 = 18446744073709551616 := by norm_num
      have hn10 : n * 10 % 2 ^ 64 = n * 10 := Nat.mod_eq_of_lt (by omega)
      rw [hn10]
      by_cases h2 : n * 10 + (c.toNat - 48) < 2 ^ 64
      · have hn1 : (n * 10 + (c.toNat - 48)) % 2 ^ 64 = n * 10 + (c.toNat - 48) :=
          Nat.mod_eq_of_lt h2
        rw [hn1]
        by_cases h3 : n * 10 + (c.toNat - 48) > maxVal
        · have : ¬ digitsValue cs (n * 10 + (c.toNat - 48)) ≤ maxVal := by omega
          simp [h3, this]
        · have h4 : ¬ (n * 10 + (c.toNat - 48) < n * 10 ∨ n * 10 + (c.toNat - 48) > maxVal) := by
            omega
          simp only [h4, if_false]
          exact ih _ (by omega) hrest
      · have hwrap : (n * 10 + (c.toNat - 48)) % 2 ^ 64 < n * 10 := by
          have : (n * 10 + (c.toNat - 48)) % 2 ^ 64 = n * 10 + (c.toNat - 48) - 2 ^ 64 := by
            rw [Nat.mod_eq_sub_mod (by omega)]
            exact Nat.mod_eq_of_lt (by omega)
          omega
        have : ¬ digitsValue cs (n * 10 + (c.toNat - 48)) ≤ maxVal := by omega
        rw [if_pos (Or.inl hwrap), if_neg this]

/-- A decimal digit is not a sign. -/
theorem digit_ne_sign (c : Char) (h : '0' ≤ c ∧ c ≤ '9') : c ≠ '-' ∧ c ≠ '+' := by
  have := digit_toNat c h
  constructor <;> intro hc <;> subst hc <;> simp at this

/-- The value `maxVal` of `ParseUint` for the size of `int`. -/
theorem maxVal_eq (arch : Arch) :
    ((2 ^ arch.intSize) % 2 ^ 64 + 2 ^ 64 - 1) % 2 ^ 64 = 2 ^ arch.intSize - 1 := by
  cases arch <;> decide

/-- On decimal digits `ParseUint` gives the value when it fits the unsigned size of `int`
and a range error otherwise. -/
theorem ParseUint_digits (arch : Arch) (c : Char) (cs : List Char)
    (hd : ∀ x ∈ c :: cs, '0' ≤ x ∧ x ≤ '9') :
    ParseUint arch (c :: cs) =
      if digitsValue (c :: cs) 0 ≤ 2 ^ arch.intSize - 1 then (digitsValue (c :: cs) 0, none)
      else (2 ^ arch.intSize - 1, some .ErrRange) := by
  unfold ParseUint
  simp only [List.cons_ne_nil, if_false, maxVal_eq]
  refine parseUintLoop_digits _ ?_ _ 0 (Nat.zero_le _) hd
  cases arch <;> decide

/-- On a text of decimal digits `ParseInt` gives the value when it is in the `int` range
and the largest `int` with a range error otherwise. -/
theorem ParseInt_digits (arch : Arch) (c : Char) (cs : List Char)
    (hd : ∀ x ∈ c :: cs, '0' ≤ x ∧ x ≤ '9') :
    ParseInt arch (c :: cs) =
      if digitsValue (c :: cs) 0 < 2 ^ (arch.intSize - 1) then
        (((digitsValue (c :: cs) 0 : Nat) : Int), none)
      else (((2 ^ (arch.intSize - 1) - 1 : Nat) : Int), some .ErrRange) := by
  have hc := digit_ne_sign c (hd c (List.mem_cons_self _ _))
  have hpow : 2 ^ arch.intSize = 2 * 2 ^ (arch.intSize - 1) := by cases arch <;> decide
  have hpos : 0 < 2 ^ (arch.intSize - 1) := Nat.pow_pos (by norm_num)
  unfold ParseInt
  simp only [List.cons_ne_nil, if_false, List.head?_cons, Option.some.injEq, hc.1, hc.2,
    decide_False, ParseUint_digits arch c cs hd]
  by_cases h1 : digitsValue (c :: cs) 0 ≤ 2 ^ arch.intSize - 1
  · by_cases h2 : digitsValue (c :: cs) 0 < 2 ^ (arch.intSize - 1)
    · have h3 : ¬ (digitsValue (c :: cs) 0 ≥ 2 ^ (arch.intSize - 1)) := by omega
      simp [h1, h2, h3]
    · have h3 : digitsValue (c :: cs) 0 ≥ 2 ^ (arch.intSize - 1) := by omega
      simp [h1, h2, h3]
  · have h2 : ¬ digitsValue (c :: cs) 0 < 2 ^ (arch.intSize - 1) := by omega
    have h3 : 2 ^ arch.intSize - 1 ≥ 2 ^ (arch.intSize - 1) := by omega
    simp [h1, h2, h3]

/-- On a text of decimal digits `Atoi` gives the value when it is in the `int` range and
the largest `int` with a range error otherwise. -/
theorem Atoi_digits (arch : Arch) (c : Char) (cs : List Char)
    (hd : ∀ x ∈ c :: cs, '0' ≤ x ∧ x ≤ '9') :
    Atoi arch ⟨c :: cs⟩ =
      if digitsValue (c :: cs) 0 < 2 ^ (arch.intSize - 1) then
        (((digitsValue (c :: cs) 0 : Nat) : Int), none)
      else (((2 ^ (arch.intSize - 1) - 1 : Nat) : Int), some .ErrRange) := by
  have hc := digit_ne_sign c (hd c (List.mem_cons_self _ _))
  unfold Atoi
  dsimp only
  by_cases hfast : (arch.intSize = 32 ∧ (0 < (⟨c :: cs⟩ : String).utf8ByteSize ∧
      (⟨c :: cs⟩ : String).utf8ByteSize < 10)) ∨
      (arch.intSize = 64 ∧ (0 < (⟨c :: cs⟩ : String).utf8ByteSize ∧
        (⟨c :: cs⟩ : String).utf8ByteSize < 19))
  · rw [if_pos hfast]
    have hloop := atoiFastLoop_digits (c :: cs) 0 hd
    simp only [Nat.cast_zero] at hloop
    have hlen := length_le_utf8ByteSize_go (c :: cs)
    have hlt := digitsValue_lt (c :: cs) 0 hd
    have hsmall : digitsValue (c :: cs) 0 < 2 ^ (arch.intSize - 1) := by
      rcases hfast with ⟨ha, -, hb⟩ | ⟨ha, -, hb⟩
      · have hl : (c :: cs).length ≤ 9 := by
          have : (⟨c :: cs⟩ : String).utf8ByteSize = String.utf8ByteSize.go (c :: cs) := rfl
          omega
        have : 10 ^ (c :: cs).length ≤ 10 ^ 9 := Nat.pow_le_pow_right (by norm_num) hl
        rw [ha]
        norm_num at hlt this ⊢
        omega
      · have hl : (c :: cs).length ≤ 18 := by
          have : (⟨c :: cs⟩ : String).utf8ByteSize = String.utf8ByteSize.go (c :: cs) := rfl
          omega
        have : 10 ^ (c :: cs).length ≤ 10 ^ 18 := Nat.pow_le_pow_right (by norm_num) hl
        rw [ha]
        norm_num at hlt this ⊢
        omega
    simp [hc.1, hc.2, hloop, hsmall]
  · rw [if_neg hfast]
    exact ParseInt_digits arch c cs hd

/-- On a minus sign followed by decimal digits `ParseInt` gives the negated value when it
is in the `int` range and the smallest `int` with a range error otherwise. -/
theorem ParseInt_minus_digits (arch : Arch) (c : Char) (cs : List Char)
    (hd : ∀ x ∈ c :: cs, '0' ≤ x ∧ x ≤ '9') :
    ParseInt arch ('-' :: c :: cs) =
      if digitsValue (c :: cs) 0 ≤ 2 ^ (arch.intSize - 1) then
        (-((digitsValue (c :: cs) 0 : Nat) : Int), none)
      else (-((2 ^ (arch.intSize - 1) : Nat) : Int), some .ErrRange) := by
  have hpow : 2 ^ arch.intSize = 2 * 2 ^ (arch.intSize - 1) := by cases arch <;> decide
  have hpos : 1 < 2 ^ (arch.intSize - 1) := by cases arch <;> decide
  have hne : ¬ ('-' = '+') := by decide
  unfold ParseInt
  simp only [List.cons_ne_nil, if_false, List.head?_cons, Option.some.injEq, hne,
    decide_True, if_true, List.tail_cons, ParseUint_digits arch c cs hd]
  by_cases h1 : digitsValue (c :: cs) 0 ≤ 2 ^ arch.intSize - 1
  · by_cases h2 : digitsValue (c :: cs) 0 ≤ 2 ^ (arch.intSize - 1)
    · have h3 : ¬ (digitsValue (c :: cs) 0 > 2 ^ (arch.intSize - 1)) := by omega
      simp [h1, h2, h3]
    · have h3 : digitsValue (c :: cs) 0 > 2 ^ (arch.intSize - 1) := by omega
      simp [h1, h2, h3]
  · have h2 : ¬ digitsValue (c :: cs) 0 ≤ 2 ^ (arch.intSize - 1) := by omega
    have h3 : 2 ^ arch.intSize - 1 > 2 ^ (arch.intSize - 1) := by omega
    simp [h1, h2, h3]

/-- On a plus sign followed by decimal digits `ParseInt` gives the value when it is in the
`int` range and the largest `int` with a range error otherwise. -/
theorem ParseInt_plus_digits (arch : Arch) (c : Char) (cs : List Char)
    (hd : ∀ x ∈ c :: cs, '0' ≤ x ∧ x ≤ '9') :
    ParseInt arch ('+' :: c :: cs) =
      if digitsValue (c :: cs) 0 < 2 ^ (arch.intSize - 1) then
        (((digitsValue (c :: cs) 0 : Nat) : Int), none)
      else (((2 ^ (arch.intSize - 1) - 1 : Nat) : Int), some .ErrRange) := by
  have hpow : 2 ^ arch.intSize = 2 * 2 ^ (arch.intSize - 1) := by cases arch <;> decide
  have hpos : 0 < 2 ^ (arch.intSize - 1) := Nat.pow_pos (by norm_num)
  have hne : ¬ ('+' = '-') := by decide
  unfold ParseInt
  simp only [List.cons_ne_nil, if_false, List.head?_cons, Option.some.injEq, hne,
    decide_False, if_true, List.tail_cons, ParseUint_digits arch c cs hd]
  by_cases h1 : digitsValue (c :: cs) 0 ≤ 2 ^ arch.intSize - 1
  · by_cases h2 : digitsValue (c :: cs) 0 < 2 ^ (arch.intSize - 1)
    · have h3 : ¬ (digitsValue (c :: cs) 0 ≥ 2 ^ (arch.intSize - 1)) := by omega
      simp [h1, h2, h3]
    · have h3 : digitsValue (c :: cs) 0 ≥ 2 ^ (arch.intSize - 1) := by omega
      simp [h1, h2, h3]
  · have h2 : ¬ digitsValue (c :: cs) 0 < 2 ^ (arch.intSize - 1) := by omega
    have h3 : 2 ^ arch.intSize - 1 ≥ 2 ^ (arch.intSize - 1) := by omega
    simp [h1, h2, h3]

/-- Bound on the value of the digits of a signed text short enough for the fast path. -/
theorem fast_path_small (arch : Arch) (sign c : Char) (cs : List Char)
    (hd : ∀ x ∈ c :: cs, '0' ≤ x ∧ x ≤ '9')
    (hfast : (arch.intSize = 32 ∧ (0 < (⟨sign :: c :: cs⟩ : String).utf8ByteSize ∧
      (⟨sign :: c :: cs⟩ : String).utf8ByteSize < 10)) ∨
      (arch.intSize = 64 ∧ (0 < (⟨sign :: c :: cs⟩ : String).utf8ByteSize ∧
        (⟨sign :: c :: cs⟩ : String).utf8ByteSize < 19))) :
    digitsValue (c :: cs) 0 < 2 ^ (arch.intSize - 1) := by
  have hlen := length_le_utf8ByteSize_go (sign :: c :: cs)
  have hlt := digitsValue_lt (c :: cs) 0 hd
  have hbs : (⟨sign :: c :: cs⟩ : String).utf8ByteSize =
      String.utf8ByteSize.go (sign :: c :: cs) := rfl
  simp only [List.length_cons] at hlen
  rcases hfast with ⟨ha, -, hb⟩ | ⟨ha, -, hb⟩
  · have hl : (c :: cs).length ≤ 9 := by simp only [List.length_cons]; omega
    have : 10 ^ (c :: cs).length ≤ 10 ^ 9 := Nat.pow_le_pow_right (by norm_num) hl
    rw [ha]
    norm_num at hlt this ⊢
    omega
  · have hl : (c :: cs).length ≤ 18 := by simp only [List.length_cons]; omega
    have : 10 ^ (c :: cs).length ≤ 10 ^ 18 := Nat.pow_le_pow_right (by norm_num) hl
    rw [ha]
    norm_num at hlt this ⊢
    omega

/-- On a minus sign followed by decimal digits `Atoi` gives the negated value when it is
in the `int` range and the smallest `int` with a range error otherwise. -/
theorem Atoi_minus_digits (arch : Arch) (c : Char) (cs : List Char)
    (hd : ∀ x ∈ c :: cs, '0' ≤ x ∧ x ≤ '9') :
    Atoi arch ⟨'-' :: c :: cs⟩ =
      if digitsValue (c :: cs) 0 ≤ 2 ^ (arch.intSize - 1) then
        (-((digitsValue (c :: cs) 0 : Nat) : Int), none)
      else (-((2 ^ (arch.intSize - 1) : Nat) : Int), some .ErrRange) := by
  unfold Atoi
  dsimp only
  by_cases hfast : (arch.intSize = 32 ∧ (0 < (⟨'-' :: c :: cs⟩ : String).utf8ByteSize ∧
      (⟨'-' :: c :: cs⟩ : String).utf8ByteSize < 10)) ∨
      (arch.intSize = 64 ∧ (0 < (⟨'-' :: c :: cs⟩ : String).utf8ByteSize ∧
        (⟨'-' :: c :: cs⟩ : String).utf8ByteSize < 19))
  · rw [if_pos hfast]
    have hloop := atoiFastLoop_digits (c :: cs) 0 hd
    simp only [Nat.cast_zero] at hloop
    have hsmall := fast_path_small arch '-' c cs hd hfast
    simp [hloop, hsmall.le]
  · rw [if_neg hfast]
    exact ParseInt_minus_digits arch c cs hd

/-- On a plus sign followed by decimal digits `Atoi` gives the value when it is in the
`int` range and the largest `int` with a range error otherwise. -/
theorem Atoi_plus_digits (arch : Arch) (c : Char) (cs : List Char)
    (hd : ∀ x ∈ c :: cs, '0' ≤ x ∧ x ≤ '9') :
    Atoi arch ⟨'+' :: c :: cs⟩ =
      if digitsValue (c :: cs) 0 < 2 ^ (arch.intSize - 1) then
        (((digitsValue (c :: cs) 0 : Nat) : Int), none)
      else (((2 ^ (arch.intSize - 1) - 1 : Nat) : Int), some .ErrRange) := by
  unfold Atoi
  dsimp only
  by_cases hfast : (arch.intSize = 32 ∧ (0 < (⟨'+' :: c :: cs⟩ : String).utf8ByteSize ∧
      (⟨'+' :: c :: cs⟩ : String).utf8ByteSize < 10)) ∨
      (arch.intSize = 64 ∧ (0 < (⟨'+' :: c :: cs⟩ : String).utf8ByteSize ∧
        (⟨'+' :: c :: cs⟩ : String).utf8ByteSize < 19))
  · rw [if_pos hfast]
    have hloop := atoiFastLoop_digits (c :: cs) 0 hd
    simp only [Nat.cast_zero] at hloop
    have hsmall := fast_path_small arch '+' c cs hd hfast
    simp [hloop, hsmall]
  · rw [if_neg hfast]
    exact ParseInt_plus_digits arch c cs hd

/-- The loop of `ParseUint` on decimal digits followed by a byte that is not a digit: a
syntax error, unless the digits already exceed the largest value, which is a range error
reported before the byte is looked at. -/
theorem parseUintLoop_digits_then (maxVal : Nat) (hmax : maxVal < 2 ^ 64) (ds : List Char)
    (c : Char) (rest : List Char) (n : Nat)
    (hn : n ≤ maxVal) (hd : ∀ x ∈ ds, '0' ≤ x ∧ x ≤ '9') (hc : ¬ ('0' ≤ c ∧ c ≤ '9')) :
    parseUintLoop maxVal (ds ++ c :: rest) n =
      if digitsValue ds n ≤ maxVal then (0, some .ErrSyntax)
      else (maxVal, some .ErrRange) := by
  induction ds generalizing n with
  | nil =>
    simp only [List.nil_append, digitsValue, hn, if_true]
    exact parseUintLoop_not_digit maxVal c rest n hc
  | cons x xs ih =>
    have hx := hd x (List.mem_cons_self _ _)
    have hxn := digit_toNat x hx
    have hrest : ∀ y ∈ xs, '0' ≤ y ∧ y ≤ '9' := fun y hy => hd y (List.mem_cons_of_mem _ hy)
    have e : '0'.toNat = 48 := rfl
    have hge := digitsValue_ge xs (n * 10 + (x.toNat - 48))
    rw [List.cons_append]
    unfold parseUintLoop
    simp only [hx, and_self, if_true, digitsValue, e]
    have hd10 : ¬ (x.toNat - 48 ≥ 10) := by omega
    simp only [hd10, if_false]
    have hcut : maxUint64 / 10 + 1 = 1844674407370955162 := by decide
    rw [hcut]
    have hp : (2:Nat) ^ 64 = 18446744073709551616 := by norm_num
    by_cases h1 : n ≥ 1844674407370955162
    · have : ¬ digitsValue xs (n * 10 + (x.toNat - 48)) ≤ maxVal := by omega
      simp [h1, this]
    · simp only [h1, if_false]
      have hn10 : n * 10 % 2 ^ 64 = n * 10 := Nat.mod_eq_of_lt (by omega)
      rw [hn10]
      by_cases h2 : n * 10 + (x.toNat - 48) < 2 ^ 64
      · have hn1 : (n * 10 + (x.toNat - 48)) % 2 ^ 64 = n * 10 + (x.toNat - 48) :=
          Nat.mod_eq_of_lt h2
        rw [hn1]
        by_cases h3 : n * 10 + (x.toNat - 48) > maxVal
        · have : ¬ digitsValue xs (n * 10 + (x.toNat - 48)) ≤ maxVal := by omega
          simp [h3, this]
        · have h4 : ¬ (n * 10 + (x.toNat - 48) < n * 10 ∨ n * 10 + (x.toNat - 48) > maxVal) := by
            omega
          simp only [h4, if_false]
          exact ih _ (by omega) hrest
      · have hwrap : (n * 10 + (x.toNat - 48)) % 2 ^ 64 < n * 10 := by
          have : (n * 10 + (x.toNat - 48)) % 2 ^ 64 = n * 10 + (x.toNat - 48) - 2 ^ 64 := by
            rw [Nat.mod_eq_sub_mod (by omega)]
            exact Nat.mod_eq_of_lt (by omega)
          omega
        have : ¬ digitsValue xs (n * 10 + (x.toNat - 48)) ≤ maxVal := by omega
        rw [if_pos (Or.inl hwrap), if_neg this]

/-- The fast loop of `Atoi` stops on the first byte that is not a decimal digit. -/
theorem atoiFastLoop_digits_then (ds : List Char) (c : Char) (rest : List Char) (n : Int)
    (hd : ∀ x ∈ ds, '0' ≤ x ∧ x ≤ '9') (hc : ¬ ('0' ≤ c ∧ c ≤ '9')) :
    atoiFastLoop (ds ++ c :: rest) n = none := by
  induction ds generalizing n with
  | nil => exact atoiFastLoop_not_digit c rest n hc
  | cons x xs ih =>
    have hx := hd x (List.mem_cons_self _ _)
    simp only [List.cons_append, atoiFastLoop, hx, and_self, if_true]
    exact ih _ (fun y hy => hd y (List.mem_cons_of_mem _ hy))

/-- On a text made of decimal digits, at least one, followed by a character that is not
a digit, `Atoi` reports a syntax error with value 0, unless the digits exceed the largest
unsigned value of the size of `int`: then it reports a range error with the largest
`int`. -/
theorem Atoi_digits_then (arch : Arch) (d : Char) (ds : List Char) (c : Char)
    (rest : List Char)
    (hd : ∀ x ∈ d :: ds, '0' ≤ x ∧ x ≤ '9') (hc : ¬ ('0' ≤ c ∧ c ≤ '9')) :
    Atoi arch ⟨d :: ds ++ c :: rest⟩ =
      if digitsValue (d :: ds) 0 ≤ 2 ^ arch.intSize - 1 then (0, some .ErrSyntax)
      else (((2 ^ (arch.intSize - 1) - 1 : Nat) : Int), some .ErrRange) := by
  have hsign := digit_ne_sign d (hd d (List.mem_cons_self _ _))
  have hpow : 2 ^ arch.intSize = 2 * 2 ^ (arch.intSize - 1) := by cases arch <;> decide
  have hpos : 0 < 2 ^ (arch.intSize - 1) := Nat.pow_pos (by norm_num)
  have hmaxlt : 2 ^ arch.intSize - 1 < 2 ^ 64 := by cases arch <;> decide
  unfold Atoi
  dsimp only
  by_cases hfast : (arch.intSize = 32 ∧ (0 < (⟨d :: ds ++ c :: rest⟩ : String).utf8ByteSize ∧
      (⟨d :: ds ++ c :: rest⟩ : String).utf8ByteSize < 10)) ∨
      (arch.intSize = 64 ∧ (0 < (⟨d :: ds ++ c :: rest⟩ : String).utf8ByteSize ∧
        (⟨d :: ds ++ c :: rest⟩ : String).utf8ByteSize < 19))
  · rw [if_pos hfast]
    have hloop := atoiFastLoop_digits_then (d :: ds) c rest 0 hd hc
    have hlen := length_le_utf8ByteSize_go (d :: ds ++ c :: rest)
    have hlt := digitsValue_lt (d :: ds) 0 hd
    have hbs : (⟨d :: ds ++ c :: rest⟩ : String).utf8ByteSize =
        String.utf8ByteSize.go (d :: ds ++ c :: rest) := rfl
    have hsmall : digitsValue (d :: ds) 0 ≤ 2 ^ arch.intSize - 1 := by
      simp only [List.length_append, List.length_cons] at hlen
      rcases hfast with ⟨ha, -, hb⟩ | ⟨ha, -, hb⟩
      · have hl : (d :: ds).length ≤ 9 := by simp only [List.length_cons]; omega
        have : 10 ^ (d :: ds).length ≤ 10 ^ 9 := Nat.pow_le_pow_right (by norm_num) hl
        rw [ha]
        norm_num at hlt this ⊢
        omega
      · have hl : (d :: ds).length ≤ 18 := by simp only [List.length_cons]; omega
        have : 10 ^ (d :: ds).length ≤ 10 ^ 18 := Nat.pow_le_pow_right (by norm_num) hl
        rw [ha]
        norm_num at hlt this ⊢
        omega
    simp only [List.cons_append] at hloop
    simp [hsign.1, hsign.2, hloop, hsmall]
  · rw [if_neg hfast]
    have hu := parseUintLoop_digits_then (2 ^ arch.intSize - 1) hmaxlt (d :: ds) c rest 0
      (Nat.zero_le _) hd hc
    simp only [List.cons_append] at hu
    unfold ParseInt ParseUint
    simp only [List.cons_append, List.cons_ne_nil, if_false, List.head?_cons,
      Option.some.injEq, hsign.1, hsign.2, decide_False, maxVal_eq, hu]
    by_cases h1 : digitsValue (d :: ds) 0 ≤ 2 ^ arch.intSize - 1
    · simp [h1]
    · have h3 : 2 ^ arch.intSize - 1 ≥ 2 ^ (arch.intSize - 1) := by omega
      simp [h1, h3]

/-- Values of `Atoi` on sample texts, on both platforms. -/
theorem Atoi_samples :
    Atoi .bits64 "500" = (500, none) ∧
    Atoi .bits64 "-42" = (-42, none) ∧
    Atoi .bits64 "+7" = (7, none) ∧
    Atoi .bits64 "12a" = (0, some .ErrSyntax) ∧
    Atoi .bits64 " 12" = (0, some .ErrSyntax) ∧
    Atoi .bits64 "9223372036854775807" = (9223372036854775807, none) ∧
    Atoi .bits64 "-9223372036854775808" = (-9223372036854775808, none) ∧
    Atoi .bits64 "-9223372036854775809" = (-9223372036854775808, some .ErrRange) ∧
    Atoi .bits64 "99999999999999999999x" = (9223372036854775807, some .ErrRange) ∧
    Atoi .bits32 "2147483647" = (2147483647, none) ∧
    Atoi .bits32 "2147483648" = (2147483647, some .ErrRange) := by
  refine ⟨?_, ?_, ?_, ?_, ?_, ?_, ?_, ?_, ?_, ?_, ?_⟩ <;> decide

/-! ## Lemmas on header maps and on the request -/

/-- After `m[k] = v` the key `k` holds `v`. -/
theorem mapLookup_mapAssign_self {β : Type} (k : String) (v : β) (m : List (String × β)) :
    mapLookup k (mapAssign k v m) = some v := by
  induction m with
  | nil => simp [mapAssign, mapLookup]
  | cons e m ih =>
    obtain ⟨k1, v1⟩ := e
    by_cases h : k1 = k
    · simp [mapAssign, mapLookup, h]
    · simp [mapAssign, mapLookup, h, ih]

/-- The assignment `m[k] = v` leaves the other keys as they were. -/
theorem mapLookup_mapAssign_ne {β : Type} (k k2 : String) (v : β) (m : List (String × β))
    (hne : k2 ≠ k) : mapLookup k2 (mapAssign k v m) = mapLookup k2 m := by
  induction m with
  | nil => simp [mapAssign, mapLookup, hne.symm]
  | cons e m ih =>
    obtain ⟨k1, v1⟩ := e
    by_cases h : k1 = k
    · subst h
      simp [mapAssign, mapLookup, hne.symm]
    · by_cases h2 : k1 = k2
      · subst h2
        simp [mapAssign, mapLookup, hne]
      · simp [mapAssign, mapLookup, h, h2, ih]

/-- The loop of lines 131-133 changes the header map only; the other fields stay. -/
theorem headerLoop_eq (headers : Headers) (r : Request) :
    headers.foldl (fun r kv => { r with Header := r.Header.Set kv.1 kv.2 }) r =
      { r with Header := headers.foldl (fun h kv => Header.Set h kv.1 kv.2) r.Header } := by
  induction headers generalizing r with
  | nil => rfl
  | cons kv rest ih => simp only [List.foldl_cons, ih]

/-- Shape of the request after lines 130-133. -/
theorem prepareRequest_eq (req : Request) (domain : String) (headers : Headers) :
    prepareRequest req domain headers =
      { Method := req.Method, URL := req.URL, Host := domain,
        Header := headers.foldl (fun h kv => Header.Set h kv.1 kv.2) req.Header } := by
  unfold prepareRequest
  dsimp only
  rw [headerLoop_eq]

/-- A name whose canonical form no remaining entry shares keeps its value through the
rest of the header loop. -/
theorem headerLoop_lookup_of_not_mem (c : String) (headers : Headers) (h0 : Header)
    (hc : c ∉ headers.map (fun kv => CanonicalMIMEHeaderKey kv.1)) :
    mapLookup c (headers.foldl (fun h kv => Header.Set h kv.1 kv.2) h0) = mapLookup c h0 := by
  induction headers generalizing h0 with
  | nil => rfl
  | cons kv rest ih =>
    simp only [List.map_cons, List.mem_cons, not_or] at hc
    rw [List.foldl_cons, ih _ hc.2]
    exact mapLookup_mapAssign_ne _ _ _ _ hc.1

/-- With names of pairwise distinct canonical forms, the header loop leaves every entry
under its canonical name. -/
theorem headerLoop_lookup_of_mem (headers : Headers) (h0 : Header)
    (hnd : (headers.map (fun kv => CanonicalMIMEHeaderKey kv.1)).Nodup)
    (kv : String × String) (hkv : kv ∈ headers) :
    mapLookup (CanonicalMIMEHeaderKey kv.1)
      (headers.foldl (fun h kv => Header.Set h kv.1 kv.2) h0) = some [kv.2] := by
  induction headers generalizing h0 with
  | nil => simp at hkv
  | cons e rest ih =>
    simp only [List.map_cons, List.nodup_cons] at hnd
    rw [List.foldl_cons]
    rcases List.mem_cons.mp hkv with h | h
    · subst h
      rw [headerLoop_lookup_of_not_mem _ _ _ hnd.1]
      exact mapLookup_mapAssign_self _ _ _
    · exact ih _ hnd.2 h

/-! ## Header names up to letter case -/

/-- Bounds on the code point of a character between two ASCII characters. -/
theorem char_between (lo hi c : Char) (h : lo ≤ c ∧ c ≤ hi) :
    lo.toNat ≤ c.toNat ∧ c.toNat ≤ hi.toNat := by
  obtain ⟨h1, h2⟩ := h
  rw [Char.le_def, UInt32.le_def] at h1 h2
  exact ⟨h1, h2⟩

/-- Turning a lower-case letter into upper case does not change the folded letter. -/
theorem toLower_upcase (c : Char) (h : 'a' ≤ c ∧ c ≤ 'z') :
    (Char.ofNat (c.toNat - 32)).toLower = c.toLower := by
  have hb := char_between 'a' 'z' c h
  have e1 : 'a'.toNat = 97 := rfl
  have e2 : 'z'.toNat = 122 := rfl
  rw [e1, e2] at hb
  have key : ∀ n : Nat, 97 ≤ n → n ≤ 122 →
      (Char.ofNat (n - 32)).toLower = (Char.ofNat n).toLower := by
    intro n h1 h2
    interval_cases n <;> decide
  have := key c.toNat hb.1 hb.2
  rwa [Char.ofNat_toNat] at this

/-- Turning an upper-case letter into lower case does not change the folded letter. -/
theorem toLower_downcase (c : Char) (h : 'A' ≤ c ∧ c ≤ 'Z') :
    (Char.ofNat (c.toNat + 32)).toLower = c.toLower := by
  have hb := char_between 'A' 'Z' c h
  have e1 : 'A'.toNat = 65 := rfl
  have e2 : 'Z'.toNat = 90 := rfl
  rw [e1, e2] at hb
  have key : ∀ n : Nat, 65 ≤ n → n ≤ 90 →
      (Char.ofNat (n + 32)).toLower = (Char.ofNat n).toLower := by
    intro n h1 h2
    interval_cases n <;> decide
  have := key c.toNat hb.1 hb.2
  rwa [Char.ofNat_toNat] at this

/-- The canonical casing changes letter case only. -/
theorem canonCase_fold (upper : Bool) (a : List Char) :
    (canonCase upper a).map Char.toLower = a.map Char.toLower := by
  induction a generalizing upper with
  | nil => rfl
  | cons c cs ih =>
    simp only [canonCase, List.map_cons]
    rw [ih]
    congr 1
    split_ifs with h1 h2
    · exact toLower_upcase c h1.2
    · exact toLower_downcase c h2.2
    · rfl

/-- The canonical form of a header name is the name up to letter case. -/
theorem CanonicalMIMEHeaderKey_fold (s : String) :
    foldName (CanonicalMIMEHeaderKey s) = foldName s := by
  have h1 : ∀ a : List Char,
      (canonicalMIMEHeaderKey a).map Char.toLower = a.map Char.toLower := by
    intro a
    unfold canonicalMIMEHeaderKey
    split
    · rfl
    · rfl
    · exact canonCase_fold true a
  have h2 : ∀ (rest : List Char) (upper : Bool),
      (canonQuick s.data rest upper).map Char.toLower = s.data.map Char.toLower := by
    intro rest
    induction rest with
    | nil => intro upper; rfl
    | cons c cs ih =>
      intro upper
      unfold canonQuick
      split_ifs <;> first | rfl | exact h1 _ | exact ih _
  simp only [foldName, CanonicalMIMEHeaderKey, h2]

/-- Names that differ other than by letter case have different canonical forms. -/
theorem canonical_nodup_of_fold_nodup (names : List String)
    (h : (names.map foldName).Nodup) : (names.map CanonicalMIMEHeaderKey).Nodup := by
  have e : names.map foldName = (names.map CanonicalMIMEHeaderKey).map foldName := by
    rw [List.map_map]
    exact List.map_congr_left (fun s _ => (CanonicalMIMEHeaderKey_fold s).symm)
  rw [e] at h
  exact List.Nodup.of_map _ h

/-! ## Lemmas on `makeRequest` -/

/-- Value of `makeRequest` once the request is built and answered. -/
theorem makeRequest_of_response (p : Platform) (flags : Flags) (client : Client)
    (host domain : String) (headers : Headers) (req : Request) (resp : Response)
    (hreq : NewRequest p "GET" host = .ok req)
    (hdo : client.Do (prepareRequest req domain headers) = .ok resp) :
    makeRequest p flags client host domain headers =
      if flags.filterContentLength > 0 ∧
          contentLengthInt p.arch (resp.Header.Get "Content-Length") < flags.filterContentLength
      then []
      else if flags.verbose = true ∨ resp.StatusCode = 200 then
        ["Host: " ++ host ++ " Domain: " ++ domain ++ " Code: " ++ resp.Status ++
          " Content-Length: " ++ resp.Header.Get "Content-Length"]
      else [] := by
  unfold makeRequest
  rw [hreq]
  simp only [hdo]
  by_cases h1 : flags.filterContentLength > 0 ∧
      contentLengthInt p.arch (resp.Header.Get "Content-Length") < flags.filterContentLength
  · simp [h1]
  · by_cases h2 : flags.verbose = true
    · simp [h1, h2]
    · by_cases h3 : resp.StatusCode = 200
      · simp [h1, h2, h3]
      · simp [h1, h2, h3]

/-- One invocation of `makeRequest` writes at most one message. -/
theorem makeRequest_length_le_one (p : Platform) (flags : Flags) (client : Client)
    (host domain : String) (headers : Headers) :
    (makeRequest p flags client host domain headers).length ≤ 1 := by
  cases hreq : NewRequest p "GET" host with
  | error e => simp [makeRequest, hreq]
  | ok req =>
    cases hdo : client.Do (prepareRequest req domain headers) with
    | error e => simp [makeRequest, hreq, hdo]
    | ok resp =>
      rw [makeRequest_of_response p flags client host domain headers req resp hreq hdo]
      split_ifs <;> simp

/-! ## The cross product of the loops -/

/-- The tasks of the loops are the cross product of the two lists, host by host. -/
theorem dispatch_eq_flatMap (hosts domains : List String) :
    dispatch hosts domains =
      hosts.flatMap (fun host => domains.map (fun domain => (host, domain))) := by
  induction hosts with
  | nil => rfl
  | cons h hs ih => simp [dispatch, ih]

/-- The loops reach `len(hosts)*len(domains)` pairs. -/
theorem dispatch_length (hosts domains : List String) :
    (dispatch hosts domains).length = hosts.length * domains.length := by
  induction hosts with
  | nil => simp [dispatch]
  | cons h hs ih => simp [dispatch, ih, Nat.succ_mul, Nat.add_comm]

/-- Occurrences of a pair among the pairs of one host. -/
theorem count_map_pair (h host : String) (d : String) (domains : List String) :
    (domains.map (fun domain => (host, domain))).count (h, d) =
      if host = h then domains.count d else 0 := by
  induction domains with
  | nil => simp
  | cons x xs ih =>
    simp only [List.map_cons, List.count_cons, ih, beq_iff_eq, Prod.mk.injEq]
    by_cases hh : host = h <;> by_cases hx : x = d <;> simp [hh, hx]

/-- A pair is reached as often as its host is listed times its domain is listed. -/
theorem dispatch_count (hosts domains : List String) (h d : String) :
    (dispatch hosts domains).count (h, d) = hosts.count h * domains.count d := by
  induction hosts with
  | nil => simp [dispatch]
  | cons x xs ih =>
    simp only [dispatch, List.count_append, ih, count_map_pair, List.count_cons, beq_iff_eq]
    by_cases hx : x = h <;> simp [hx, Nat.add_mul, Nat.add_comm]

/-- The pair of host `i` and domain `j` is the one reached at position `i*len(domains)+j`.
-/
theorem dispatch_getElem? (hosts domains : List String) (i j : Nat) (h d : String)
    (hi : hosts[i]? = some h) (hj : domains[j]? = some d) :
    (dispatch hosts domains)[i * domains.length + j]? = some (h, d) := by
  induction hosts generalizing i with
  | nil => simp at hi
  | cons x xs ih =>
    have hjlt : j < domains.length := (List.getElem?_eq_some.mp hj).1
    cases i with
    | zero =>
      simp only [List.getElem?_cons_zero, Option.some.injEq] at hi
      subst hi
      simp only [dispatch, Nat.zero_mul, Nat.zero_add]
      rw [List.getElem?_append_left (by simpa using hjlt)]
      simp [hj]
    | succ n =>
      simp only [List.getElem?_cons_succ] at hi
      simp only [dispatch]
      rw [List.getElem?_append_right (by simp [Nat.succ_mul]; omega)]
      have : (n + 1) * domains.length + j - (domains.map (fun domain => (x, domain))).length =
          n * domains.length + j := by
        simp [Nat.succ_mul]; omega
      rw [this]
      exact ih n hi

/-! ## The invariant is kept by every step -/

/-- An element at an index splits the list around it, and `set` at the index replaces it.
-/
theorem getElem?_decompose {α : Type} (l : List α) (i : Nat) (a : α) (h : l[i]? = some a) :
    ∃ l1 l2, l = l1 ++ a :: l2 ∧ l1.length = i ∧ ∀ b, l.set i b = l1 ++ b :: l2 := by
  induction l generalizing i with
  | nil => simp at h
  | cons x xs ih =>
    cases i with
    | zero =>
      simp at h
      subst h
      exact ⟨[], xs, rfl, rfl, fun b => rfl⟩
    | succ n =>
      simp at h
      obtain ⟨l1, l2, h1, h2, h3⟩ := ih n h
      refine ⟨x :: l1, l2, by simp [h1], by simp [h2], fun b => ?_⟩
      simp [List.set, h3 b]

/-- The invariant holds when the dispatch phase starts, whatever the capacity. -/
theorem Inv_init (p : Platform) (flags : Flags) (client : Client) (headers : Headers)
    (hosts domains : List String) (cap : Nat) :
    Inv p flags client headers hosts domains
      { todo := dispatch hosts domains, procs := [], ch := [], cap := cap, wg := 0 } where
  tasks_eq := by simp
  msgs_perm := by simp
  wg_eq := by simp
  done_empty := by simp

/-- The state `main` starts from, when `make` does not panic. -/
theorem initState_some (arch : Arch) (hosts domains : List String) (s0 : State)
    (h : initState arch hosts domains = some s0) :
    s0 = { todo := dispatch hosts domains, procs := [], ch := [], cap := s0.cap, wg := 0 } ∧
      ((s0.cap : Nat) : Int) = wrapInt arch (hosts.length * domains.length) := by
  unfold initState at h
  dsimp only at h
  split_ifs at h with hneg
  simp only [Option.some.injEq] at h
  subst h
  exact ⟨rfl, Int.toNat_of_nonneg (not_lt.mp hneg)⟩

/-- A product that fits `int` is not changed by the wrapping. -/
theorem wrapInt_of_fits (arch : Arch) (n : Nat) (h : n < 2 ^ (arch.intSize - 1)) :
    wrapInt arch n = (n : Int) := by
  have hpow : 2 ^ arch.intSize = 2 * 2 ^ (arch.intSize - 1) := by cases arch <;> decide
  have hmod : n % 2 ^ arch.intSize = n := Nat.mod_eq_of_lt (by omega)
  unfold wrapInt
  simp only [hmod, h, if_true]

/-- When the product of the lengths fits `int`, `main` starts with a channel of that
capacity. -/
theorem initState_of_fits (arch : Arch) (hosts domains : List String)
    (h : hosts.length * domains.length < 2 ^ (arch.intSize - 1)) :
    initState arch hosts domains =
      some { todo := dispatch hosts domains, procs := [], ch := [],
             cap := hosts.length * domains.length, wg := 0 } := by
  unfold initState
  dsimp only
  rw [wrapInt_of_fits arch _ h, if_neg (not_lt.mpr (Int.ofNat_nonneg _)), Int.toNat_ofNat]

/-- The invariant holds in the state `main` starts from. -/
theorem Inv_initState (p : Platform) (flags : Flags) (client : Client) (headers : Headers)
    (hosts domains : List String) (s0 : State)
    (h : initState p.arch hosts domains = some s0) :
    Inv p flags client headers hosts domains s0 := by
  rw [(initState_some p.arch hosts domains s0 h).1]
  exact Inv_init p flags client headers hosts domains s0.cap

/-- Every step keeps the invariant. -/
theorem Inv_step (p : Platform) (flags : Flags) (client : Client) (headers : Headers)
    (hosts domains : List String) (s s1 : State) (a : Action)
    (hinv : Inv p flags client headers hosts domains s)
    (hstep : step p flags client headers s a = some s1) :
    Inv p flags client headers hosts domains s1 := by
  obtain ⟨htasks, hmsgs, hwg, hdone⟩ := hinv
  cases a with
  | spawn =>
    unfold step at hstep
    dsimp only at hstep
    split at hstep
    · cases hstep
    · rename_i host domain rest htodo
      simp only [Option.some.injEq] at hstep
      subst hstep
      refine ⟨?_, ?_, ?_, ?_⟩
      · simp [htasks, htodo, Goroutine.args]
      · simp only [List.flatMap_append, List.map_append, List.map_cons, List.map_nil,
          List.flatMap_cons, List.flatMap_nil, List.append_nil, Goroutine.args]
        rw [← List.append_assoc]
        exact hmsgs.append_right _
      · simp [hwg, List.countP_append]
      · intro g hg hd
        rcases List.mem_append.mp hg with h | h
        · exact hdone g h hd
        · simp only [List.mem_singleton] at h
          subst h
          cases hd
  | send i =>
    unfold step at hstep
    dsimp only at hstep
    split at hstep
    · cases hstep
    · rename_i g hg
      split at hstep
      · cases hstep
      · rename_i msg rest hpend
        split_ifs at hstep with hc
        simp only [Option.some.injEq] at hstep
        subst hstep
        obtain ⟨l1, l2, hl, -, hset⟩ := getElem?_decompose s.procs i g hg
        have hgeq : g = { g with pending := msg :: rest } := by
          cases g; simp_all
        refine ⟨?_, ?_, ?_, ?_⟩
        · simp only [hset, htasks]
          rw [hl]
          simp [Goroutine.args]
        · simp only [hset]
          rw [hl, hgeq] at hmsgs
          simp only [List.flatMap_append, List.map_append, List.map_cons,
            List.flatMap_cons, Goroutine.args] at hmsgs ⊢
          refine List.Perm.trans ?_ hmsgs
          simp only [List.append_assoc]
          refine List.Perm.append_left _ ?_
          simp only [← List.append_assoc]
          refine List.Perm.append_right _ ?_
          simp only [List.singleton_append, List.cons_append]
          exact (List.perm_middle).symm
        · simp only [hset]
          rw [hwg, hl]
          simp [List.countP_append, List.countP_cons]
        · intro g2 hg2 hd
          simp only [hset, List.mem_append, List.mem_cons] at hg2
          rcases hg2 with h | h | h
          · exact hdone g2 (by rw [hl]; simp [h]) hd
          · subst h
            simp only at hd
            rw [hc.1] at hd
            cases hd
          · exact hdone g2 (by rw [hl]; simp [h]) hd
  | done i =>
    unfold step at hstep
    dsimp only at hstep
    split at hstep
    · cases hstep
    · rename_i g hg
      split_ifs at hstep with hc
      simp only [Option.some.injEq] at hstep
      subst hstep
      obtain ⟨l1, l2, hl, -, hset⟩ := getElem?_decompose s.procs i g hg
      refine ⟨?_, ?_, ?_, ?_⟩
      · simp only [hset, htasks]
        rw [hl]
        simp [Goroutine.args]
      · simp only [hset]
        rw [hl] at hmsgs
        simpa [Goroutine.args] using hmsgs
      · simp only [hset]
        rw [hwg, hl]
        simp only [List.countP_append, List.countP_cons, hc.1]
        push_cast
        simp
        ring
      · intro g2 hg2 hd
        simp only [hset, List.mem_append, List.mem_cons] at hg2
        rcases hg2 with h | h | h
        · exact hdone g2 (by rw [hl]; simp [h]) hd
        · subst h
          exact hc.2
        · exact hdone g2 (by rw [hl]; simp [h]) hd

/-- Every schedule keeps the invariant. -/
theorem Inv_exec (p : Platform) (flags : Flags) (client : Client) (headers : Headers)
    (hosts domains : List String) (sched : List Action) (s s1 : State)
    (hinv : Inv p flags client headers hosts domains s)
    (hexec : exec p flags client headers s sched = some s1) :
    Inv p flags client headers hosts domains s1 := by
  induction sched generalizing s with
  | nil =>
    simp only [exec, Option.some.injEq] at hexec
    subst hexec
    exact hinv
  | cons a rest ih =>
    unfold exec at hexec
    split at hexec
    · cases hexec
    · rename_i s2 hs2
      exact ih s2 (Inv_step p flags client headers hosts domains s s2 a hinv hs2) hexec

/-- No step changes the capacity of the channel. -/
theorem step_cap (p : Platform) (flags : Flags) (client : Client) (headers : Headers)
    (s s1 : State) (a : Action) (h : step p flags client headers s a = some s1) :
    s1.cap = s.cap := by
  cases a with
  | spawn =>
    unfold step at h
    dsimp only at h
    split at h
    · cases h
    · simp only [Option.some.injEq] at h
      subst h
      rfl
  | send i =>
    unfold step at h
    dsimp only at h
    split at h
    · cases h
    · split at h
      · cases h
      · split_ifs at h
        simp only [Option.some.injEq] at h
        subst h
        rfl
  | done i =>
    unfold step at h
    dsimp only at h
    split at h
    · cases h
    · split_ifs at h
      simp only [Option.some.injEq] at h
      subst h
      rfl

/-- No schedule changes the capacity of the channel. -/
theorem exec_cap (p : Platform) (flags : Flags) (client : Client) (headers : Headers)
    (sched : List Action) (s s1 : State)
    (h : exec p flags client headers s sched = some s1) : s1.cap = s.cap := by
  induction sched generalizing s with
  | nil =>
    simp only [exec, Option.some.injEq] at h
    subst h
    rfl
  | cons a rest ih =>
    simp only [exec] at h
    cases hs : step p flags client headers s a with
    | none => simp [hs] at h
    | some s2 =>
      simp only [hs] at h
      rw [ih s2 h, step_cap p flags client headers s s2 a hs]

/-! ## Consequences of the invariant -/

/-- Lists of at most one element each add up to at most one element per list. -/
theorem length_flatMap_le {α β : Type} (f : α → List β) (l : List α)
    (hf : ∀ a, (f a).length ≤ 1) : (l.flatMap f).length ≤ l.length := by
  induction l with
  | nil => simp
  | cons a as ih =>
    simp only [List.flatMap_cons, List.length_append, List.length_cons]
    have := hf a
    omega

/-- Lists of one element each add up to one element per list. -/
theorem length_flatMap_eq {α β : Type} (f : α → List β) (l : List α)
    (hf : ∀ a ∈ l, (f a).length = 1) : (l.flatMap f).length = l.length := by
  induction l with
  | nil => simp
  | cons a as ih =>
    simp only [List.flatMap_cons, List.length_append, List.length_cons]
    have h1 := hf a (List.mem_cons_self _ _)
    have h2 := ih (fun b hb => hf b (List.mem_cons_of_mem _ hb))
    omega

/-- In a state that satisfies the invariant, with a channel of at least one place per
task, the messages written and the messages still to be written fit together in the
channel. -/
theorem Inv_room (p : Platform) (flags : Flags) (client : Client) (headers : Headers)
    (hosts domains : List String) (s : State)
    (hinv : Inv p flags client headers hosts domains s)
    (hcap : hosts.length * domains.length ≤ s.cap) :
    s.ch.length + (s.procs.flatMap (fun g => g.pending)).length ≤ s.cap := by
  have h1 := hinv.msgs_perm.length_eq
  rw [List.length_append] at h1
  have h2 := length_flatMap_le (fun a => makeRequest p flags client a.1 a.2 headers)
    (s.procs.map Goroutine.args)
    (fun a => makeRequest_length_le_one p flags client a.1 a.2 headers)
  have h3 := congrArg List.length hinv.tasks_eq
  rw [dispatch_length, List.length_append] at h3
  omega

/-- In a state that satisfies the invariant, with a channel of at least one place per
task, a goroutine that has a message to write can write it: the channel is not full. -/
theorem Inv_send_enabled (p : Platform) (flags : Flags) (client : Client) (headers : Headers)
    (hosts domains : List String) (s : State)
    (hinv : Inv p flags client headers hosts domains s)
    (hcap : hosts.length * domains.length ≤ s.cap)
    (i : Nat) (g : Goroutine) (hg : s.procs[i]? = some g) (hpend : g.pending ≠ []) :
    (step p flags client headers s (.send i)).isSome = true := by
  have hroom := Inv_room p flags client headers hosts domains s hinv hcap
  obtain ⟨l1, l2, hl, -, -⟩ := getElem?_decompose s.procs i g hg
  have hmem : g ∈ s.procs := by rw [hl]; simp
  have hnd : g.done = false := by
    cases hd : g.done with
    | false => rfl
    | true => exact absurd (hinv.done_empty g hmem hd) hpend
  have hlen : 1 ≤ (s.procs.flatMap (fun g => g.pending)).length := by
    rw [hl]
    simp only [List.flatMap_append, List.flatMap_cons, List.length_append]
    have : 1 ≤ g.pending.length := List.length_pos.mpr hpend
    omega
  unfold step
  dsimp only
  rw [hg]
  dsimp only
  cases hp : g.pending with
  | nil => exact absurd hp hpend
  | cons msg rest =>
    dsimp only
    rw [if_pos ⟨hnd, by omega⟩]
    rfl

/-- When `main` gets past `wg.Wait()`, what it drains from the channel is, up to order,
the messages of all the tasks of the cross product, and every goroutine has returned. -/
theorem Inv_collected (p : Platform) (flags : Flags) (client : Client) (headers : Headers)
    (hosts domains : List String) (s : State) (out : List String)
    (hinv : Inv p flags client headers hosts domains s)
    (hout : collected s = some out) :
    out.Perm ((dispatch hosts domains).flatMap
        (fun a => makeRequest p flags client a.1 a.2 headers)) ∧
      s.procs.map Goroutine.args = dispatch hosts domains ∧
      ∀ g ∈ s.procs, g.done = true ∧ g.pending = [] := by
  unfold collected at hout
  split_ifs at hout with hc
  simp only [Option.some.injEq] at hout
  subst hout
  obtain ⟨htodo, hwg0⟩ := hc
  have hcount : s.procs.countP (fun g => !g.done) = 0 := by
    have := hinv.wg_eq
    rw [hwg0] at this
    exact_mod_cast this.symm
  have hall : ∀ g ∈ s.procs, g.done = true ∧ g.pending = [] := by
    intro g hg
    have hd : g.done = true := by
      have := (List.countP_eq_zero.mp hcount) g hg
      simpa using this
    exact ⟨hd, hinv.done_empty g hg hd⟩
  have hpend : s.procs.flatMap (fun g => g.pending) = [] := by
    rw [List.flatMap_eq_nil_iff]
    exact fun g hg => (hall g hg).2
  have htasks : s.procs.map Goroutine.args = dispatch hosts domains := by
    rw [hinv.tasks_eq, htodo, List.append_nil]
  refine ⟨?_, htasks, hall⟩
  have := hinv.msgs_perm
  rw [hpend, List.append_nil, htasks] at this
  exact this

/-! ## A run that completes -/

/-- Replacing the last element of a list. -/
theorem set_append_length {α : Type} (l : List α) (a b : α) :
    (l ++ [a]).set l.length b = l ++ [b] := by
  induction l with
  | nil => rfl
  | cons x xs ih => simp [List.set, ih]

/-- Running two schedules one after the other. -/
theorem exec_append (p : Platform) (flags : Flags) (client : Client) (headers : Headers)
    (s s1 : State) (as bs : List Action)
    (h : exec p flags client headers s as = some s1) :
    exec p flags client headers s (as ++ bs) = exec p flags client headers s1 bs := by
  induction as generalizing s with
  | nil =>
    simp only [exec, Option.some.injEq] at h
    subst h
    rfl
  | cons a rest ih =>
    simp only [List.cons_append, exec] at h ⊢
    cases hs2 : step p flags client headers s a with
    | none => simp [hs2] at h
    | some s2 =>
      simp only [hs2] at h ⊢
      exact ih s2 h

/-- From a state in which every started goroutine has returned and the channel has room
for one message per task still to start, the schedule that runs the remaining tasks one
after the other takes `main` to the end of the dispatch phase. -/
theorem exec_completes (p : Platform) (flags : Flags) (client : Client) (headers : Headers)
    (todo : List (String × String)) (s : State)
    (htodo : s.todo = todo)
    (hquiet : ∀ g ∈ s.procs, g.done = true ∧ g.pending = [])
    (hwg : s.wg = 0)
    (hroom : s.ch.length + todo.length ≤ s.cap) :
    ∃ sched s1, exec p flags client headers s sched = some s1 ∧ s1.todo = [] ∧ s1.wg = 0 := by
  induction todo generalizing s with
  | nil => exact ⟨[], s, rfl, htodo, hwg⟩
  | cons a rest ih =>
    obtain ⟨host, domain⟩ := a
    have hlen := makeRequest_length_le_one p flags client host domain headers
    cases hm : makeRequest p flags client host domain headers with
    | nil =>
      let g1 : Goroutine := { host := host, domain := domain, pending := [], done := true }
      let s2 : State :=
        { todo := rest, procs := s.procs ++ [g1], ch := s.ch, cap := s.cap, wg := 0 }
      have hrun : exec p flags client headers s [.spawn, .done s.procs.length] = some s2 := by
        simp [exec, step, htodo, hm, set_append_length, hwg, s2, g1]
      obtain ⟨sched, s3, h3, h4, h5⟩ := ih s2 rfl
        (by
          intro g hg
          rcases List.mem_append.mp hg with h | h
          · exact hquiet g h
          · simp only [List.mem_singleton] at h
            subst h
            exact ⟨rfl, rfl⟩)
        rfl
        (by simp only [List.length_cons] at hroom; show s.ch.length + rest.length ≤ s.cap; omega)
      refine ⟨[.spawn, .done s.procs.length] ++ sched, s3, ?_, h4, h5⟩
      rw [exec_append p flags client headers s s2 _ sched hrun]
      exact h3
    | cons msg more =>
      have hmore : more = [] := by
        rw [hm] at hlen
        simp only [List.length_cons] at hlen
        exact List.length_eq_zero.mp (by omega)
      subst hmore
      let g1 : Goroutine := { host := host, domain := domain, pending := [], done := true }
      let s2 : State :=
        { todo := rest, procs := s.procs ++ [g1], ch := s.ch ++ [msg], cap := s.cap, wg := 0 }
      have hlt : s.ch.length < s.cap := by
        simp only [List.length_cons] at hroom
        omega
      have hrun : exec p flags client headers s
          [.spawn, .send s.procs.length, .done s.procs.length] = some s2 := by
        simp [exec, step, htodo, hm, set_append_length, hwg, hlt, s2, g1]
      obtain ⟨sched, s3, h3, h4, h5⟩ := ih s2 rfl
        (by
          intro g hg
          rcases List.mem_append.mp hg with h | h
          · exact hquiet g h
          · simp only [List.mem_singleton] at h
            subst h
            exact ⟨rfl, rfl⟩)
        rfl
        (by
          simp only [List.length_cons] at hroom
          show (s.ch ++ [msg]).length + rest.length ≤ s.cap
          simp only [List.length_append, List.length_singleton]
          omega)
      refine ⟨[.spawn, .send s.procs.length, .done s.procs.length] ++ sched, s3, ?_, h4, h5⟩
      rw [exec_append p flags client headers s s2 _ sched hrun]
      exact h3

/-- A result of `main` is what is collected in a state reached by the schedule from the
state `main` starts from. -/
theorem main_eq_some (p : Platform) (flags : Flags) (client : Client) (headers : Headers)
    (hosts domains : List String) (sched : List Action) (out : List String) :
    main p flags client headers hosts domains sched = some out ↔
      ∃ s0 s, initState p.arch hosts domains = some s0 ∧
        exec p flags client headers s0 sched = some s ∧ collected s = some out := by
  unfold main
  cases h0 : initState p.arch hosts domains with
  | none => simp
  | some s0 =>
    cases h : exec p flags client headers s0 sched with
    | none => simp [h]
    | some s => simp [h]

/-- When the product of the lengths fits `int`, the dispatch phase of `main` can run to
its end. -/
theorem main_completes (p : Platform) (flags : Flags) (client : Client) (headers : Headers)
    (hosts domains : List String)
    (hfit : hosts.length * domains.length < 2 ^ (p.arch.intSize - 1)) :
    ∃ sched out, main p flags client headers hosts domains sched = some out := by
  have h0 := initState_of_fits p.arch hosts domains hfit
  obtain ⟨sched, s1, h1, h2, h3⟩ := exec_completes p flags client headers
    (dispatch hosts domains)
    { todo := dispatch hosts domains, procs := [], ch := [],
      cap := hosts.length * domains.length, wg := 0 }
    rfl (by simp) rfl (by simp [dispatch_length])
  exact ⟨sched, s1.ch,
    (main_eq_some _ _ _ _ _ _ _ _).mpr ⟨_, s1, h0, h1, by simp [collected, h2, h3]⟩⟩

/-- Whatever the schedule, what `main` prints is, up to order, the messages of all the
tasks of the cross product. -/
theorem main_perm (p : Platform) (flags : Flags) (client : Client) (headers : Headers)
    (hosts domains : List String) (sched : List Action) (out : List String)
    (hout : main p flags client headers hosts domains sched = some out) :
    out.Perm ((dispatch hosts domains).flatMap
      (fun a => makeRequest p flags client a.1 a.2 headers)) := by
  obtain ⟨s0, s, h0, hexec, hcol⟩ := (main_eq_some _ _ _ _ _ _ _ _).mp hout
  have hinv := Inv_exec p flags client headers hosts domains sched s0 s
    (Inv_initState p flags client headers hosts domains s0 h0) hexec
  exact (Inv_collected p flags client headers hosts domains s out hinv hcol).1

/-! ## A channel without buffer -/

/-- A pair reached by the loops is made of a host and a domain of the lists. -/
theorem mem_dispatch (hosts domains : List String) (a : String × String)
    (h : a ∈ dispatch hosts domains) : a.1 ∈ hosts ∧ a.2 ∈ domains := by
  induction hosts with
  | nil => simp [dispatch] at h
  | cons x xs ih =>
    simp only [dispatch, List.mem_append, List.mem_map] at h
    rcases h with ⟨d, hd, rfl⟩ | h
    · exact ⟨List.mem_cons_self _ _, hd⟩
    · exact ⟨List.mem_cons_of_mem _ (ih h).1, (ih h).2⟩

/-- The first pair the loops reach. -/
theorem dispatch_cons_cons (h : String) (hs : List String) (d : String) (ds : List String) :
    dispatch (h :: hs) (d :: ds) =
      (h, d) :: (ds.map (fun domain => (h, domain)) ++ dispatch hs (d :: ds)) := by
  simp only [dispatch, List.map_cons, List.cons_append]

/-- Start of the goroutine of the next pair. -/
theorem step_spawn_cons (p : Platform) (flags : Flags) (client : Client) (headers : Headers)
    (s : State) (host domain : String) (rest : List (String × String))
    (h : s.todo = (host, domain) :: rest) :
    step p flags client headers s .spawn =
      some { todo := rest, procs := s.procs ++
               [{ host := host, domain := domain,
                  pending := makeRequest p flags client host domain headers, done := false }],
             ch := s.ch, cap := s.cap, wg := s.wg + 1 } := by
  simp only [step, h]

/-- With a channel of capacity 0 and a message to write in every task, the only step that
can happen is the start of a goroutine, and the state stays stuck. -/
theorem Stuck_step (p : Platform) (flags : Flags) (client : Client) (headers : Headers)
    (s s1 : State) (a : Action)
    (hs : Stuck p flags client headers s)
    (hstep : step p flags client headers s a = some s1) :
    Stuck p flags client headers s1 := by
  obtain ⟨hcap, htodo, hprocs, hwg, hne⟩ := hs
  cases a with
  | spawn =>
    unfold step at hstep
    dsimp only at hstep
    split at hstep
    · cases hstep
    · rename_i host domain rest heq
      simp only [Option.some.injEq] at hstep
      subst hstep
      refine ⟨hcap, ?_, ?_, ?_, Or.inr (by simp)⟩
      · intro a ha
        exact htodo a (by rw [heq]; exact List.mem_cons_of_mem _ ha)
      · intro g hg
        rcases List.mem_append.mp hg with h | h
        · exact hprocs g h
        · simp only [List.mem_singleton] at h
          subst h
          exact ⟨htodo (host, domain) (by rw [heq]; exact List.mem_cons_self _ _), rfl⟩
      · simp only [List.length_append, List.length_singleton, hwg]
        push_cast
        rfl
  | send i =>
    exfalso
    unfold step at hstep
    dsimp only at hstep
    split at hstep
    · cases hstep
    · split at hstep
      · cases hstep
      · split_ifs at hstep with hc
        omega
  | done i =>
    exfalso
    unfold step at hstep
    dsimp only at hstep
    split at hstep
    · cases hstep
    · rename_i g hg
      split_ifs at hstep with hc
      obtain ⟨l1, l2, hl, -, -⟩ := getElem?_decompose s.procs i g hg
      exact (hprocs g (by rw [hl]; simp)).1 hc.2

/-- With a channel of capacity 0 and a message to write in every task, every schedule
leaves the state stuck. -/
theorem Stuck_exec (p : Platform) (flags : Flags) (client : Client) (headers : Headers)
    (sched : List Action) (s s1 : State)
    (hs : Stuck p flags client headers s)
    (hexec : exec p flags client headers s sched = some s1) :
    Stuck p flags client headers s1 := by
  induction sched generalizing s with
  | nil =>
    simp only [exec, Option.some.injEq] at hexec
    subst hexec
    exact hs
  | cons a rest ih =>
    simp only [exec] at hexec
    cases h2 : step p flags client headers s a with
    | none => simp [h2] at hexec
    | some s2 =>
      simp only [h2] at hexec
      exact ih s2 (Stuck_step p flags client headers s s2 a hs h2) hexec

/-- A stuck state is not one in which `main` gets past `wg.Wait()`. -/
theorem Stuck_not_collected (p : Platform) (flags : Flags) (client : Client)
    (headers : Headers) (s : State) (out : List String)
    (hs : Stuck p flags client headers s) (hcol : collected s = some out) : False := by
  obtain ⟨-, -, -, hwg, hne⟩ := hs
  unfold collected at hcol
  split_ifs at hcol with hc
  obtain ⟨htodo, hwg0⟩ := hc
  rcases hne with h | h
  · exact h htodo
  · rw [hwg0] at hwg
    have : s.procs.length = 0 := by exact_mod_cast hwg.symm
    exact h (List.length_eq_zero.mp this)

/-! ## The claims -/

/-- Claim C1: for a request that was built and answered, whatever the verbose flag and
the status code, a positive threshold together with a parsed Content-Length strictly
below it makes `makeRequest` write nothing to the channel. -/
theorem makeRequest_threshold_suppresses (p : Platform) (flags : Flags) (client : Client)
    (host domain : String) (headers : Headers) (req : Request) (resp : Response)
    (hreq : NewRequest p "GET" host = .ok req)
    (hdo : client.Do (prepareRequest req domain headers) = .ok resp)
    (hpos : flags.filterContentLength > 0)
    (hlt : contentLengthInt p.arch (resp.Header.Get "Content-Length") <
      flags.filterContentLength) :
    makeRequest p flags client host domain headers = [] := by
  rw [makeRequest_of_response p flags client host domain headers req resp hreq hdo]
  simp [hpos, hlt]

/-- Scenario of C1: threshold 1000, Content-Length 500, verbose on, status 200: nothing
is written. -/
theorem makeRequest_threshold_suppresses_witness :
    makeRequest demoPlatform { verbose := true, filterContentLength := 1000 }
      (fixedClient { Status := "200 OK", StatusCode := 200,
                     Header := [("Content-Length", ["500"])] })
      "https://10.0.0.1" "a.example.com" defaultHeaders = [] :=
  makeRequest_threshold_suppresses demoPlatform _ _ "https://10.0.0.1" "a.example.com"
    defaultHeaders _ _ rfl rfl (by decide) (by decide)

/-- Claim C2: for a request that was built and answered and that the threshold rule does
not suppress (threshold zero or below, or parsed Content-Length at least the threshold),
`makeRequest` writes a message exactly when verbose is on or the status code is 200; so
with verbose off a status-200 response that passes the threshold is written, and with
verbose off a response of another status is not written, whatever its Content-Length. -/
theorem makeRequest_emits_iff_verbose_or_ok (p : Platform) (flags : Flags) (client : Client)
    (host domain : String) (headers : Headers) (req : Request) (resp : Response)
    (hreq : NewRequest p "GET" host = .ok req)
    (hdo : client.Do (prepareRequest req domain headers) = .ok resp) :
    ((flags.filterContentLength ≤ 0 ∨
        flags.filterContentLength ≤
          contentLengthInt p.arch (resp.Header.Get "Content-Length")) →
      ((∃ msg, makeRequest p flags client host domain headers = [msg]) ↔
        (flags.verbose = true ∨ resp.StatusCode = 200)) ∧
      (flags.verbose = false → resp.StatusCode = 200 →
        makeRequest p flags client host domain headers =
          ["Host: " ++ host ++ " Domain: " ++ domain ++ " Code: " ++ resp.Status ++
            " Content-Length: " ++ resp.Header.Get "Content-Length"])) ∧
    (flags.verbose = false → resp.StatusCode ≠ 200 →
        makeRequest p flags client host domain headers = []) := by
  rw [makeRequest_of_response p flags client host domain headers req resp hreq hdo]
  refine ⟨?_, ?_⟩
  · intro hpass
    have hno : ¬ (flags.filterContentLength > 0 ∧
        contentLengthInt p.arch (resp.Header.Get "Content-Length") <
          flags.filterContentLength) := by
      rintro ⟨h1, h2⟩
      rcases hpass with h | h <;> omega
    simp only [hno, if_false]
    refine ⟨?_, ?_⟩
    · by_cases hv : flags.verbose = true ∨ resp.StatusCode = 200
      · simp [hv]
      · simp [hv]
    · intro hv hs
      simp [hs]
  · intro hv hs
    simp [hv, hs]

/-- Scenario of C2: status 404 with Content-Length 50 and threshold 0 gives no message
with verbose off and one message carrying the code with verbose on. -/
theorem makeRequest_emits_iff_verbose_or_ok_witness :
    makeRequest demoPlatform { verbose := false, filterContentLength := 0 }
        (fixedClient { Status := "404 Not Found", StatusCode := 404,
                       Header := [("Content-Length", ["50"])] })
        "https://10.0.0.1" "a.example.com" defaultHeaders = [] ∧
    ∃ msg, makeRequest demoPlatform { verbose := true, filterContentLength := 0 }
        (fixedClient { Status := "404 Not Found", StatusCode := 404,
                       Header := [("Content-Length", ["50"])] })
        "https://10.0.0.1" "a.example.com" defaultHeaders = [msg] :=
  ⟨(makeRequest_emits_iff_verbose_or_ok demoPlatform _ _ "https://10.0.0.1" "a.example.com"
      defaultHeaders _ _ rfl rfl).2 rfl (by decide),
   ((makeRequest_emits_iff_verbose_or_ok demoPlatform _ _ "https://10.0.0.1" "a.example.com"
      defaultHeaders _ _ rfl rfl).1 (Or.inl (by decide))).1.mpr (Or.inl rfl)⟩

/-- Claim C3, amended: when the Content-Length header of the response is absent, empty,
or a text that `strconv.Atoi` rejects with a syntax error (such as any text that starts
with neither a sign nor a digit), the value compared against the threshold is 0; a text
of decimal digits is compared as its value capped at the largest `int`, and whenever
`Atoi` reports a range error the value is the largest `int` or the smallest one; a
message, when one is written, ends with the original header text unchanged. -/
theorem contentLength_zero_on_syntax_error (p : Platform) (flags : Flags) (client : Client)
    (host domain : String) (headers : Headers) (req : Request) (resp : Response)
    (hreq : NewRequest p "GET" host = .ok req)
    (hdo : client.Do (prepareRequest req domain headers) = .ok resp) :
    (mapLookup "Content-Length" resp.Header = none → resp.Header.Get "Content-Length" = "") ∧
    (resp.Header.Get "Content-Length" = "" ∨
        (Atoi p.arch (resp.Header.Get "Content-Length")).2 = some .ErrSyntax →
      contentLengthInt p.arch (resp.Header.Get "Content-Length") = 0) ∧
    (∀ c cs, resp.Header.Get "Content-Length" = ⟨c :: cs⟩ →
      ¬ ('0' ≤ c ∧ c ≤ '9') → c ≠ '+' → c ≠ '-' →
      contentLengthInt p.arch (resp.Header.Get "Content-Length") = 0) ∧
    (∀ c cs, resp.Header.Get "Content-Length" = ⟨c :: cs⟩ →
      (∀ x ∈ c :: cs, '0' ≤ x ∧ x ≤ '9') →
      contentLengthInt p.arch (resp.Header.Get "Content-Length") =
        min ((digitsValue (c :: cs) 0 : Nat) : Int) (2 ^ (p.arch.intSize - 1) - 1)) ∧
    ((Atoi p.arch (resp.Header.Get "Content-Length")).2 = some .ErrRange →
      contentLengthInt p.arch (resp.Header.Get "Content-Length") =
          2 ^ (p.arch.intSize - 1) - 1 ∨
        contentLengthInt p.arch (resp.Header.Get "Content-Length") =
          -(2 ^ (p.arch.intSize - 1))) ∧
    (∀ msg ∈ makeRequest p flags client host domain headers,
      msg = "Host: " ++ host ++ " Domain: " ++ domain ++ " Code: " ++ resp.Status ++
        " Content-Length: " ++ resp.Header.Get "Content-Length") := by
  refine ⟨?_, ?_, ?_, ?_, ?_, ?_⟩
  · intro habs
    have hc : CanonicalMIMEHeaderKey "Content-Length" = "Content-Length" := by decide
    simp only [Header.Get, hc, habs]
  · intro hbad
    unfold contentLengthInt
    split_ifs with hne
    · rcases hbad with h | h
      · exact absurd h hne
      · exact Atoi_syntax_zero _ _ h
    · rfl
  · intro c cs htext hc hplus hminus
    unfold contentLengthInt
    rw [htext, Atoi_syntax_of_not_digit p.arch c cs hc hplus hminus]
    simp
  · intro c cs htext hdig
    have hne : (⟨c :: cs⟩ : String) ≠ "" := by
      intro h
      have := congrArg String.data h
      simp at this
    have hpos : (0 : Int) < 2 ^ (p.arch.intSize - 1) := by positivity
    unfold contentLengthInt
    rw [htext, if_pos hne, Atoi_digits p.arch c cs hdig]
    by_cases hlt : digitsValue (c :: cs) 0 < 2 ^ (p.arch.intSize - 1)
    · rw [if_pos hlt]
      have : ((digitsValue (c :: cs) 0 : Nat) : Int) < 2 ^ (p.arch.intSize - 1) := by
        exact_mod_cast hlt
      simp only
      rw [min_eq_left (by omega)]
    · rw [if_neg hlt]
      have : (2 : Int) ^ (p.arch.intSize - 1) ≤ ((digitsValue (c :: cs) 0 : Nat) : Int) := by
        exact_mod_cast not_lt.mp hlt
      have h1 : 1 ≤ 2 ^ (p.arch.intSize - 1) := Nat.one_le_two_pow
      simp only
      rw [min_eq_right (by omega)]
      push_cast [Nat.cast_sub h1]
      rfl
  · intro hrange
    unfold contentLengthInt
    split_ifs with hne
    · exact Atoi_range_value _ _ hrange
    · have hempty : resp.Header.Get "Content-Length" = "" := not_not.mp hne
      rw [hempty, Atoi_empty] at hrange
      cases hrange
  · intro msg hmsg
    rw [makeRequest_of_response p flags client host domain headers req resp hreq hdo] at hmsg
    split_ifs at hmsg <;> simp_all

/-- Scenario of C3: a response whose Content-Length header is the text `abc`, read with
verbose off and no threshold. -/
theorem contentLength_zero_on_syntax_error_witness :
    contentLengthInt .bits64 "abc" = 0 ∧
    ∀ msg ∈ makeRequest demoPlatform { verbose := false, filterContentLength := 0 }
        (fixedClient { Status := "200 OK", StatusCode := 200,
                       Header := [("Content-Length", ["abc"])] })
        "https://10.0.0.1" "a.example.com" defaultHeaders,
      msg = "Host: " ++ "https://10.0.0.1" ++ " Domain: " ++ "a.example.com" ++ " Code: " ++
        "200 OK" ++ " Content-Length: " ++ "abc" :=
  ⟨(contentLength_zero_on_syntax_error demoPlatform
      { verbose := false, filterContentLength := 0 }
      (fixedClient { Status := "200 OK", StatusCode := 200,
                     Header := [("Content-Length", ["abc"])] })
      "https://10.0.0.1" "a.example.com" defaultHeaders _ _ rfl rfl).2.1 (Or.inr (by decide)),
   (contentLength_zero_on_syntax_error demoPlatform
      { verbose := false, filterContentLength := 0 }
      (fixedClient { Status := "200 OK", StatusCode := 200,
                     Header := [("Content-Length", ["abc"])] })
      "https://10.0.0.1" "a.example.com" defaultHeaders _ _ rfl rfl).2.2.2.2.2⟩

/-- Claim C3 as stated fails: the digits `9223372036854775808` overflow the `int` range,
`Atoi` reports a range error, and the value compared against the threshold is the largest
`int`, not 0; with threshold 1000 the response is written although 0 would suppress it. -/
theorem contentLength_overflow_not_zero :
    (Atoi .bits64 "9223372036854775808").2 = some .ErrRange ∧
    contentLengthInt .bits64 "9223372036854775808" = 9223372036854775807 ∧
    contentLengthInt .bits32 "9223372036854775808" = 2147483647 ∧
    makeRequest demoPlatform { verbose := false, filterContentLength := 1000 }
        (fixedClient { Status := "200 OK", StatusCode := 200,
                       Header := [("Content-Length", ["9223372036854775808"])] })
        "https://10.0.0.1" "a.example.com" defaultHeaders =
      ["Host: https://10.0.0.1 Domain: a.example.com Code: 200 OK " ++
        "Content-Length: 9223372036854775808"] := by
  refine ⟨?_, ?_, ?_, ?_⟩ <;> decide

/-- Claim C4: when the request cannot be built, or the client call fails, `makeRequest`
writes exactly one message, made of the host and the error text, whatever the threshold
and the verbose flag; such a message never has the form of a message for a response. -/
theorem makeRequest_failure_message (p : Platform) (flags : Flags) (client : Client)
    (host domain : String) (headers : Headers) :
    (∀ err, NewRequest p "GET" host = .error err →
        makeRequest p flags client host domain headers =
          ["Failed to create request for " ++ host ++ ": " ++ err]) ∧
    (∀ req err, NewRequest p "GET" host = .ok req →
        client.Do (prepareRequest req domain headers) = .error err →
        makeRequest p flags client host domain headers =
          ["Request to " ++ host ++ " failed: " ++ err]) ∧
    (∀ err h d st cl,
        "Failed to create request for " ++ host ++ ": " ++ err ≠
          "Host: " ++ h ++ " Domain: " ++ d ++ " Code: " ++ st ++ " Content-Length: " ++ cl ∧
        "Request to " ++ host ++ " failed: " ++ err ≠
          "Host: " ++ h ++ " Domain: " ++ d ++ " Code: " ++ st ++ " Content-Length: " ++ cl) := by
  refine ⟨?_, ?_, ?_⟩
  · intro err herr
    simp [makeRequest, herr]
  · intro req err hreq hdo
    simp [makeRequest, hreq, hdo]
  · intro err h d st cl
    constructor
    · intro heq
      have h1 := congrArg String.data heq
      simp only [String.data_append] at h1
      have h2 := congrArg List.head? h1
      simp [List.append_assoc] at h2
    · intro heq
      have h1 := congrArg String.data heq
      simp only [String.data_append] at h1
      have h2 := congrArg List.head? h1
      simp [List.append_assoc] at h2

/-- Scenario of C4: a malformed target and an unreachable host give one message each. -/
theorem makeRequest_failure_message_witness :
    makeRequest demoPlatform { verbose := false, filterContentLength := 1000 }
        (failingClient "dial tcp 10.0.0.1:443: connect: connection refused")
        "10.0.0.1:443" "a.example.com" defaultHeaders =
      ["Failed to create request for 10.0.0.1:443: " ++
        "first path segment in URL cannot contain colon"] ∧
    makeRequest demoPlatform { verbose := false, filterContentLength := 1000 }
        (failingClient "dial tcp 10.0.0.1:443: connect: connection refused")
        "https://10.0.0.1" "a.example.com" defaultHeaders =
      ["Request to https://10.0.0.1 failed: " ++
        "dial tcp 10.0.0.1:443: connect: connection refused"] :=
  ⟨(makeRequest_failure_message demoPlatform _ _ "10.0.0.1:443" "a.example.com"
      defaultHeaders).1 _ rfl,
   (makeRequest_failure_message demoPlatform _ _ "https://10.0.0.1" "a.example.com"
      defaultHeaders).2.1 _ _ rfl rfl⟩

/-- Claim C5: every message `makeRequest` writes for a request that was built and
answered is the text `Host: h Domain: d Code: s Content-Length: c` with the host, the
domain, the status text and the original Content-Length header text, and the text is the
same whatever the flags, verbose or not. -/
theorem makeRequest_message_format (p : Platform) (flags flags2 : Flags) (client : Client)
    (host domain : String) (headers : Headers) (req : Request) (resp : Response)
    (hreq : NewRequest p "GET" host = .ok req)
    (hdo : client.Do (prepareRequest req domain headers) = .ok resp)
    (msg msg2 : String)
    (hmsg : msg ∈ makeRequest p flags client host domain headers)
    (hmsg2 : msg2 ∈ makeRequest p flags2 client host domain headers) :
    msg = "Host: " ++ host ++ " Domain: " ++ domain ++ " Code: " ++ resp.Status ++
        " Content-Length: " ++ resp.Header.Get "Content-Length" ∧
    msg2 = msg := by
  have key : ∀ (f : Flags) (m : String), m ∈ makeRequest p f client host domain headers →
      m = "Host: " ++ host ++ " Domain: " ++ domain ++ " Code: " ++ resp.Status ++
        " Content-Length: " ++ resp.Header.Get "Content-Length" := by
    intro f m hm
    rw [makeRequest_of_response p f client host domain headers req resp hreq hdo] at hm
    split_ifs at hm <;> simp_all
  exact ⟨key flags msg hmsg, (key flags2 msg2 hmsg2).trans (key flags msg hmsg).symm⟩

/-- Scenario of C5: the same response read with verbose on and with verbose off. -/
theorem makeRequest_message_format_witness :
    "Host: https://10.0.0.1 Domain: a.example.com Code: 200 OK Content-Length: 500" ∈
        makeRequest demoPlatform { verbose := true, filterContentLength := 0 }
          (fixedClient { Status := "200 OK", StatusCode := 200,
                         Header := [("Content-Length", ["500"])] })
          "https://10.0.0.1" "a.example.com" defaultHeaders ∧
      "Host: https://10.0.0.1 Domain: a.example.com Code: 200 OK Content-Length: 500" ∈
        makeRequest demoPlatform { verbose := false, filterContentLength := 100 }
          (fixedClient { Status := "200 OK", StatusCode := 200,
                         Header := [("Content-Length", ["500"])] })
          "https://10.0.0.1" "a.example.com" defaultHeaders ∧
      "Host: https://10.0.0.1 Domain: a.example.com Code: 200 OK Content-Length: 500" =
        "Host: " ++ "https://10.0.0.1" ++ " Domain: " ++ "a.example.com" ++ " Code: " ++
          "200 OK" ++ " Content-Length: " ++ "500" :=
  ⟨by decide, by decide,
    (makeRequest_message_format demoPlatform { verbose := true, filterContentLength := 0 }
      { verbose := false, filterContentLength := 100 }
      (fixedClient { Status := "200 OK", StatusCode := 200,
                     Header := [("Content-Length", ["500"])] })
      "https://10.0.0.1" "a.example.com" defaultHeaders
      { Method := "GET", URL := demoURL, Host := "10.0.0.1", Header := [] }
      { Status := "200 OK", StatusCode := 200, Header := [("Content-Length", ["500"])] }
      rfl rfl "Host: https://10.0.0.1 Domain: a.example.com Code: 200 OK Content-Length: 500"
      "Host: https://10.0.0.1 Domain: a.example.com Code: 200 OK Content-Length: 500"
      (by decide) (by decide)).1⟩

/-- Claim C6: for all host lists and domain lists the loops of `main` start one task per
position pair of the cross product: the task list has `len(hosts)*len(domains)` entries,
the one at position `i*len(domains)+j` being the pair of host `i` and domain `j`, a pair
occurs as often as its host and its domain are listed (nothing is merged), and when
`main` gets past the barrier exactly these tasks were started and all have returned.
For hosts `https://10.0.0.1` and domains `a.example.com`, `b.example.com`, both answered
with status 200, threshold 0 and verbose off, exactly the two messages of the two domains
are collected. -/
theorem dispatch_one_task_per_pair (p : Platform) (flags : Flags) (client : Client)
    (headers : Headers) (hosts domains : List String) :
    (dispatch hosts domains).length = hosts.length * domains.length ∧
    (∀ i j h d, hosts[i]? = some h → domains[j]? = some d →
      (dispatch hosts domains)[i * domains.length + j]? = some (h, d)) ∧
    (∀ h d, (dispatch hosts domains).count (h, d) = hosts.count h * domains.count d) ∧
    (∀ s0 sched s out, initState p.arch hosts domains = some s0 →
      exec p flags client headers s0 sched = some s →
      collected s = some out →
      s.procs.map Goroutine.args = dispatch hosts domains ∧
      s.procs.length = hosts.length * domains.length ∧
      ∀ g ∈ s.procs, g.done = true) ∧
    (∀ u respA respB, p.urlParse "https://10.0.0.1" = .ok u →
      client.Do (prepareRequest { Method := "GET", URL := u, Host := u.Host, Header := [] }
        "a.example.com" headers) = .ok respA →
      client.Do (prepareRequest { Method := "GET", URL := u, Host := u.Host, Header := [] }
        "b.example.com" headers) = .ok respB →
      respA.StatusCode = 200 → respB.StatusCode = 200 →
      flags.verbose = false → flags.filterContentLength = 0 →
      ∀ sched out,
        main p flags client headers ["https://10.0.0.1"] ["a.example.com", "b.example.com"]
          sched = some out →
        out.length = 2 ∧
        out.Perm
          ["Host: " ++ "https://10.0.0.1" ++ " Domain: " ++ "a.example.com" ++ " Code: " ++
              respA.Status ++ " Content-Length: " ++ respA.Header.Get "Content-Length",
           "Host: " ++ "https://10.0.0.1" ++ " Domain: " ++ "b.example.com" ++ " Code: " ++
              respB.Status ++ " Content-Length: " ++ respB.Header.Get "Content-Length"]) := by
  refine ⟨dispatch_length hosts domains, ?_, dispatch_count hosts domains, ?_, ?_⟩
  · intro i j h d hi hj
    exact dispatch_getElem? hosts domains i j h d hi hj
  · intro s0 sched s out h0 hexec hout
    have hinv := Inv_exec p flags client headers hosts domains sched s0 s
      (Inv_initState p flags client headers hosts domains s0 h0) hexec
    obtain ⟨-, htasks, hall⟩ := Inv_collected p flags client headers hosts domains s out hinv hout
    refine ⟨htasks, ?_, fun g hg => (hall g hg).1⟩
    have := congrArg List.length htasks
    rwa [List.length_map, dispatch_length] at this
  · intro u respA respB hu hA hB hsA hsB hv hf sched out hout
    have hperm := main_perm p flags client headers _ _ sched out hout
    have hreq : NewRequest p "GET" "https://10.0.0.1" =
        .ok { Method := "GET", URL := u, Host := u.Host, Header := [] } := by
      simp [NewRequest, hu]
    have hmA := makeRequest_of_response p flags client "https://10.0.0.1" "a.example.com"
      headers _ respA hreq hA
    have hmB := makeRequest_of_response p flags client "https://10.0.0.1" "b.example.com"
      headers _ respB hreq hB
    simp only [hf, hsA, hsB, gt_iff_lt, lt_self_iff_false, false_and, if_false, or_true,
      if_true] at hmA hmB
    simp only [dispatch, List.map_cons, List.map_nil, List.append_nil, List.flatMap_cons,
      List.flatMap_nil, hmA, hmB, List.singleton_append] at hperm
    exact ⟨hperm.length_eq, hperm⟩

/-- Scenario of C6 on a concrete world, the second goroutine writing first. -/
theorem dispatch_one_task_per_pair_witness :
    main demoPlatform okFlags okClient defaultHeaders
        ["https://10.0.0.1"] ["a.example.com", "b.example.com"]
        [.spawn, .spawn, .send 1, .send 0, .done 0, .done 1] =
      some ["Host: https://10.0.0.1 Domain: b.example.com Code: 200 OK Content-Length: 500",
        "Host: https://10.0.0.1 Domain: a.example.com Code: 200 OK Content-Length: 500"] ∧
    (["Host: https://10.0.0.1 Domain: b.example.com Code: 200 OK Content-Length: 500",
      "Host: https://10.0.0.1 Domain: a.example.com Code: 200 OK Content-Length: 500"] :
        List String).Perm
      ["Host: " ++ "https://10.0.0.1" ++ " Domain: " ++ "a.example.com" ++ " Code: " ++
          "200 OK" ++ " Content-Length: " ++ "500",
       "Host: " ++ "https://10.0.0.1" ++ " Domain: " ++ "b.example.com" ++ " Code: " ++
          "200 OK" ++ " Content-Length: " ++ "500"] :=
  ⟨by decide,
   ((dispatch_one_task_per_pair demoPlatform okFlags okClient defaultHeaders
      ["https://10.0.0.1"] ["a.example.com", "b.example.com"]).2.2.2.2
      demoURL { Status := "200 OK", StatusCode := 200, Header := [("Content-Length", ["500"])] }
      { Status := "200 OK", StatusCode := 200, Header := [("Content-Length", ["500"])] }
      rfl rfl rfl rfl rfl rfl rfl
      [.spawn, .spawn, .send 1, .send 0, .done 0, .done 1] _ (by decide)).2⟩

/-- Claim C7: when the request can be built, the request `makeRequest` hands to the
client is a GET whose URL is the parsed host and whose `Host` field is the domain
whatever the Header Set holds (a `Host` entry included), and every entry of the Header
Set is in the header map of the request, stored under the canonical form of its name
with exactly its supplied value, which is what `Get` returns for the name.  A Header Set
has each name once, names being compared without regard to letter case. -/
theorem prepared_request_get_host_headers (p : Platform) (host domain : String)
    (headers : Headers) (req : Request)
    (hreq : NewRequest p "GET" host = .ok req)
    (hnames : (headers.map (fun kv => foldName kv.1)).Nodup) :
    (prepareRequest req domain headers).Method = "GET" ∧
    p.urlParse host = .ok (prepareRequest req domain headers).URL ∧
    (prepareRequest req domain headers).Host = domain ∧
    ∀ kv ∈ headers,
      mapLookup (CanonicalMIMEHeaderKey kv.1) (prepareRequest req domain headers).Header =
        some [kv.2] ∧
      (prepareRequest req domain headers).Header.Get kv.1 = kv.2 := by
  have hshape : req.Method = "GET" ∧ p.urlParse host = .ok req.URL := by
    unfold NewRequest at hreq
    cases hu : p.urlParse host with
    | error e => simp [hu] at hreq
    | ok u =>
      simp only [hu, Except.ok.injEq] at hreq
      subst hreq
      exact ⟨rfl, rfl⟩
  have hcanon : (headers.map (fun kv => CanonicalMIMEHeaderKey kv.1)).Nodup := by
    have h1 : headers.map (fun kv => foldName kv.1) =
        (headers.map (fun kv => kv.1)).map foldName := by
      rw [List.map_map]
      rfl
    have h2 : headers.map (fun kv => CanonicalMIMEHeaderKey kv.1) =
        (headers.map (fun kv => kv.1)).map CanonicalMIMEHeaderKey := by
      rw [List.map_map]
      rfl
    rw [h2]
    exact canonical_nodup_of_fold_nodup _ (h1 ▸ hnames)
  rw [prepareRequest_eq]
  refine ⟨hshape.1, hshape.2, rfl, ?_⟩
  intro kv hkv
  have hl := headerLoop_lookup_of_mem headers req.Header hcanon kv hkv
  exact ⟨hl, by simp only [Header.Get, hl]⟩

/-- Scenario of C7: a Header Set with an entry named `Host` and a lower-case name. -/
theorem prepared_request_get_host_headers_witness :
    (prepareRequest { Method := "GET", URL := demoURL, Host := "10.0.0.1", Header := [] }
        "a.example.com" [("Host", "other.example.com"), ("user-agent", "probe")]).Host =
      "a.example.com" ∧
    (prepareRequest { Method := "GET", URL := demoURL, Host := "10.0.0.1", Header := [] }
        "a.example.com" [("Host", "other.example.com"), ("user-agent", "probe")]).Header =
      [("Host", ["other.example.com"]), ("User-Agent", ["probe"])] ∧
    ∀ kv ∈ [("Host", "other.example.com"), ("user-agent", "probe")],
      mapLookup (CanonicalMIMEHeaderKey kv.1)
        (prepareRequest { Method := "GET", URL := demoURL, Host := "10.0.0.1", Header := [] }
          "a.example.com" [("Host", "other.example.com"), ("user-agent", "probe")]).Header =
        some [kv.2] ∧
      (prepareRequest { Method := "GET", URL := demoURL, Host := "10.0.0.1", Header := [] }
        "a.example.com" [("Host", "other.example.com"), ("user-agent", "probe")]).Header.Get
          kv.1 = kv.2 :=
  ⟨(prepared_request_get_host_headers demoPlatform "https://10.0.0.1" "a.example.com"
      [("Host", "other.example.com"), ("user-agent", "probe")] _ rfl (by decide)).2.2.1,
   by decide,
   (prepared_request_get_host_headers demoPlatform "https://10.0.0.1" "a.example.com"
      [("Host", "other.example.com"), ("user-agent", "probe")] _ rfl (by decide)).2.2.2⟩

/-- Claim C8, amended: on every path one invocation of `makeRequest` writes zero or one
message, never two; hence for all host and domain lists whose `len(hosts)*len(domains)`
fits Go's `int`, `main` makes the channel with that capacity, and in every state the
dispatch phase can reach the messages written and those still to be written together
never exceed it, so that a goroutine with a message to write can always write it: no
write blocks on a full channel. -/
theorem makeRequest_single_write_never_blocks (p : Platform) (flags : Flags)
    (client : Client) (headers : Headers) (hosts domains : List String) :
    (∀ host domain, (makeRequest p flags client host domain headers).length ≤ 1) ∧
    (hosts.length * domains.length < 2 ^ (p.arch.intSize - 1) →
      ∃ s0, initState p.arch hosts domains = some s0 ∧
        s0.cap = hosts.length * domains.length ∧
        ∀ sched s, exec p flags client headers s0 sched = some s →
          s.cap = hosts.length * domains.length ∧
          s.ch.length + (s.procs.flatMap (fun g => g.pending)).length ≤ s.cap ∧
          ∀ i g, s.procs[i]? = some g → g.pending ≠ [] →
            (step p flags client headers s (.send i)).isSome = true) := by
  refine ⟨fun host domain => makeRequest_length_le_one p flags client host domain headers, ?_⟩
  intro hfit
  have h0 := initState_of_fits p.arch hosts domains hfit
  refine ⟨_, h0, rfl, ?_⟩
  intro sched s hexec
  have hinv := Inv_exec p flags client headers hosts domains sched _ s
    (Inv_init p flags client headers hosts domains _) hexec
  have hcap := exec_cap p flags client headers sched _ s hexec
  have hcap2 : s.cap = hosts.length * domains.length := hcap
  exact ⟨hcap2, Inv_room p flags client headers hosts domains s hinv (by omega),
    fun i g hg hpend =>
      Inv_send_enabled p flags client headers hosts domains s hinv (by omega) i g hg hpend⟩

/-- Scenario of C8: both goroutines of a one-host, two-domain run are started before
either writes; the second one can write at once. -/
theorem makeRequest_single_write_never_blocks_witness :
    ∃ s0, initState demoPlatform.arch ["https://10.0.0.1"] ["a.example.com", "b.example.com"] =
        some s0 ∧
      s0.cap = 2 ∧
      exec demoPlatform okFlags okClient defaultHeaders s0 [.spawn, .spawn] =
        some demoStarted ∧
      (step demoPlatform okFlags okClient defaultHeaders demoStarted (.send 1)).isSome = true := by
  obtain ⟨s0, h0, hcap, hall⟩ :=
    (makeRequest_single_write_never_blocks demoPlatform okFlags okClient defaultHeaders
      ["https://10.0.0.1"] ["a.example.com", "b.example.com"]).2 (by decide)
  have hs0 : s0 =
      { todo := dispatch ["https://10.0.0.1"] ["a.example.com", "b.example.com"],
        procs := [], ch := [], cap := 2, wg := 0 } := by
    have h1 : initState demoPlatform.arch ["https://10.0.0.1"]
        ["a.example.com", "b.example.com"] =
        some { todo := dispatch ["https://10.0.0.1"] ["a.example.com", "b.example.com"],
               procs := [], ch := [], cap := 2, wg := 0 } := by decide
    rw [h1] at h0
    exact (Option.some.inj h0).symm
  have hexec : exec demoPlatform okFlags okClient defaultHeaders s0 [.spawn, .spawn] =
      some demoStarted := by
    rw [hs0]
    decide
  exact ⟨s0, h0, hcap, hexec,
    (hall [.spawn, .spawn] demoStarted hexec).2.2 1
      { host := "https://10.0.0.1", domain := "b.example.com",
        pending :=
          ["Host: https://10.0.0.1 Domain: b.example.com Code: 200 OK Content-Length: 500"],
        done := false }
      (by decide) (by decide)⟩

/-- Claim C8 as stated fails: on a platform with a 32-bit `int`, for 65536 hosts and
65536 domains the product `len(hosts)*len(domains)` wraps to 0, the channel has no
buffer, and the first goroutine blocks on the one message it has to write. -/
theorem write_blocks_when_capacity_wraps :
    ∃ s0 s1,
      initState demoPlatform32.arch (List.replicate 65536 "https://10.0.0.1")
        (List.replicate 65536 "a.example.com") = some s0 ∧
      s0.cap = 0 ∧
      step demoPlatform32 okFlags okClient defaultHeaders s0 .spawn = some s1 ∧
      s1.procs =
        [{ host := "https://10.0.0.1", domain := "a.example.com",
           pending :=
             ["Host: https://10.0.0.1 Domain: a.example.com Code: 200 OK Content-Length: 500"],
           done := false }] ∧
      step demoPlatform32 okFlags okClient defaultHeaders s1 (.send 0) = none := by
  have hH : List.replicate 65536 "https://10.0.0.1" =
      "https://10.0.0.1" :: List.replicate 65535 "https://10.0.0.1" :=
    List.replicate_succ _ 65535
  have hD : List.replicate 65536 "a.example.com" =
      "a.example.com" :: List.replicate 65535 "a.example.com" :=
    List.replicate_succ _ 65535
  have hw : wrapInt Arch.bits32 (65536 * 65536) = 0 := by decide
  have h0 : initState demoPlatform32.arch (List.replicate 65536 "https://10.0.0.1")
      (List.replicate 65536 "a.example.com") =
      some { todo := dispatch (List.replicate 65536 "https://10.0.0.1")
               (List.replicate 65536 "a.example.com"),
             procs := [], ch := [], cap := 0, wg := 0 } := by
    unfold initState
    simp only [List.length_replicate]
    show (if wrapInt Arch.bits32 (65536 * 65536) < 0 then none else _) = _
    rw [hw]
    rfl
  have hm : makeRequest demoPlatform32 okFlags okClient "https://10.0.0.1" "a.example.com"
      defaultHeaders =
      ["Host: https://10.0.0.1 Domain: a.example.com Code: 200 OK Content-Length: 500"] := by
    decide
  have hspawn := step_spawn_cons demoPlatform32 okFlags okClient defaultHeaders
    { todo := dispatch (List.replicate 65536 "https://10.0.0.1")
        (List.replicate 65536 "a.example.com"),
      procs := [], ch := [], cap := 0, wg := 0 }
    "https://10.0.0.1" "a.example.com" _
    (by rw [hH, hD]; exact dispatch_cons_cons _ _ _ _)
  rw [hm] at hspawn
  refine ⟨_, _, h0, rfl, hspawn, rfl, ?_⟩
  simp [step]

/-- Claim C9, amended: `readHeaders` returns no error; when no file is supplied, or the
file cannot be opened, or its content does not decode, the result is the default mapping,
which is not empty and has `User-Agent` and `Accept-Language`; when the file decodes, the
result is the decoded mapping as it is, empty if the file holds an empty object. -/
theorem readHeaders_default_or_decoded (fs : Files) (filePath : String) :
    (readHeaders fs filePath).2 = none ∧
    ((filePath = "" ∨ (∃ err, fs.Open filePath = .error err) ∨
        (∃ file err, fs.Open filePath = .ok file ∧ fs.Decode file = .error err)) →
      (readHeaders fs filePath).1 = defaultHeaders ∧
      (readHeaders fs filePath).1 ≠ [] ∧
      mapLookup "User-Agent" (readHeaders fs filePath).1 ≠ none ∧
      mapLookup "Accept-Language" (readHeaders fs filePath).1 ≠ none) ∧
    (∀ file headers, filePath ≠ "" → fs.Open filePath = .ok file →
      fs.Decode file = .ok headers → (readHeaders fs filePath).1 = headers) := by
  have hdef : (filePath = "" ∨ (∃ err, fs.Open filePath = .error err) ∨
        (∃ file err, fs.Open filePath = .ok file ∧ fs.Decode file = .error err)) →
      (readHeaders fs filePath).1 = defaultHeaders := by
    intro h
    unfold readHeaders
    by_cases hp : filePath = ""
    · simp [hp, defaultHeaders]
    · rcases h with h | ⟨err, h⟩ | ⟨file, err, h1, h2⟩
      · exact absurd h hp
      · simp [hp, h, defaultHeaders]
      · simp [hp, h1, h2, defaultHeaders]
  refine ⟨?_, ?_, ?_⟩
  · unfold readHeaders
    split_ifs
    · rfl
    · split
      · rfl
      · split <;> rfl
  · intro h
    rw [hdef h]
    exact ⟨rfl, by decide, by decide, by decide⟩
  · intro file headers hp hopen hdec
    simp [readHeaders, hp, hopen, hdec]

/-- Scenario of C9: no file supplied, and a file that holds one header. -/
theorem readHeaders_default_or_decoded_witness :
    (readHeaders demoFiles "").1 ≠ [] ∧
    (readHeaders demoFiles "probe.json").1 = [("X-Probe", "1")] :=
  ⟨((readHeaders_default_or_decoded demoFiles "").2.1 (Or.inl rfl)).2.1,
   (readHeaders_default_or_decoded demoFiles "probe.json").2.2 _ _ (by decide) rfl rfl⟩

/-- Claim C9 as stated fails: a header file that holds the empty JSON object decodes
without error and `readHeaders` returns the empty mapping. -/
theorem readHeaders_empty_object_gives_empty :
    demoFiles.Open "empty.json" = .ok "\x7b\x7d" ∧
    demoFiles.Decode "\x7b\x7d" = .ok [] ∧
    readHeaders demoFiles "empty.json" = ([], none) :=
  ⟨rfl, rfl, by decide⟩

/-- Claim C10, amended: when each of the `N = len(hosts)*len(domains)` tasks writes exactly
one message, then however the goroutines interleave, what `main` drains after the barrier
and the close is exactly `N` messages: the messages of the tasks, each once and intact, in
some order; and when `N` fits Go's `int`, `main` can run to that point. -/
theorem collected_one_message_per_task (p : Platform) (flags : Flags) (client : Client)
    (headers : Headers) (hosts domains : List String)
    (hone : ∀ a ∈ dispatch hosts domains,
      (makeRequest p flags client a.1 a.2 headers).length = 1) :
    (hosts.length * domains.length < 2 ^ (p.arch.intSize - 1) →
      ∃ sched out, main p flags client headers hosts domains sched = some out) ∧
    ∀ sched out, main p flags client headers hosts domains sched = some out →
      out.length = hosts.length * domains.length ∧
      out.Perm ((dispatch hosts domains).flatMap
        (fun a => makeRequest p flags client a.1 a.2 headers)) := by
  refine ⟨main_completes p flags client headers hosts domains, ?_⟩
  intro sched out hout
  have hperm := main_perm p flags client headers hosts domains sched out hout
  refine ⟨?_, hperm⟩
  rw [hperm.length_eq, length_flatMap_eq _ _ hone, dispatch_length]

/-- Scenario of C10: two tasks, the second writing first; both messages are collected. -/
theorem collected_one_message_per_task_witness :
    main demoPlatform okFlags okClient defaultHeaders
        ["https://10.0.0.1"] ["a.example.com", "b.example.com"]
        [.spawn, .spawn, .send 1, .send 0, .done 0, .done 1] =
      some ["Host: https://10.0.0.1 Domain: b.example.com Code: 200 OK Content-Length: 500",
        "Host: https://10.0.0.1 Domain: a.example.com Code: 200 OK Content-Length: 500"] ∧
    (["Host: https://10.0.0.1 Domain: b.example.com Code: 200 OK Content-Length: 500",
      "Host: https://10.0.0.1 Domain: a.example.com Code: 200 OK Content-Length: 500"] :
        List String).length = [("https://10.0.0.1" : String)].length *
          [("a.example.com" : String), "b.example.com"].length ∧
    ∃ sched out, main demoPlatform okFlags okClient defaultHeaders
        ["https://10.0.0.1"] ["a.example.com", "b.example.com"] sched = some out :=
  ⟨by decide,
   ((collected_one_message_per_task demoPlatform okFlags okClient defaultHeaders
      ["https://10.0.0.1"] ["a.example.com", "b.example.com"] (by decide)).2
      [.spawn, .spawn, .send 1, .send 0, .done 0, .done 1] _ (by decide)).1,
   (collected_one_message_per_task demoPlatform okFlags okClient defaultHeaders
      ["https://10.0.0.1"] ["a.example.com", "b.example.com"] (by decide)).1 (by decide)⟩

/-- Claim C10 as stated fails: on a platform with a 32-bit `int`, for 65536 hosts and
65536 domains every task writes exactly one message, but the channel capacity wraps to 0
and no schedule takes `main` past `wg.Wait()`: nothing is collected. -/
theorem nothing_collected_when_capacity_wraps :
    (∀ a ∈ dispatch (List.replicate 65536 "https://10.0.0.1")
        (List.replicate 65536 "a.example.com"),
      (makeRequest demoPlatform32 okFlags okClient a.1 a.2 defaultHeaders).length = 1) ∧
    ¬ ∃ sched out, main demoPlatform32 okFlags okClient defaultHeaders
        (List.replicate 65536 "https://10.0.0.1") (List.replicate 65536 "a.example.com")
        sched = some out := by
  have hm : makeRequest demoPlatform32 okFlags okClient "https://10.0.0.1" "a.example.com"
      defaultHeaders =
      ["Host: https://10.0.0.1 Domain: a.example.com Code: 200 OK Content-Length: 500"] := by
    decide
  have hall : ∀ a ∈ dispatch (List.replicate 65536 "https://10.0.0.1")
      (List.replicate 65536 "a.example.com"),
      makeRequest demoPlatform32 okFlags okClient a.1 a.2 defaultHeaders =
        ["Host: https://10.0.0.1 Domain: a.example.com Code: 200 OK Content-Length: 500"] := by
    intro a ha
    obtain ⟨h1, h2⟩ := mem_dispatch _ _ a ha
    rw [List.eq_of_mem_replicate h1, List.eq_of_mem_replicate h2]
    exact hm
  refine ⟨fun a ha => by rw [hall a ha]; rfl, ?_⟩
  rintro ⟨sched, out, hout⟩
  obtain ⟨s0, s, h0, hexec, hcol⟩ := (main_eq_some _ _ _ _ _ _ _ _).mp hout
  obtain ⟨hs0, hcap⟩ := initState_some _ _ _ s0 h0
  have hw : wrapInt Arch.bits32 (65536 * 65536) = 0 := by decide
  have hcap0 : s0.cap = 0 := by
    simp only [List.length_replicate] at hcap
    have : ((s0.cap : Nat) : Int) = 0 := hcap.trans hw
    exact_mod_cast this
  have hH : List.replicate 65536 "https://10.0.0.1" =
      "https://10.0.0.1" :: List.replicate 65535 "https://10.0.0.1" :=
    List.replicate_succ _ 65535
  have hD : List.replicate 65536 "a.example.com" =
      "a.example.com" :: List.replicate 65535 "a.example.com" :=
    List.replicate_succ _ 65535
  have hstuck : Stuck demoPlatform32 okFlags okClient defaultHeaders s0 := by
    refine ⟨hcap0, ?_, ?_, ?_, ?_⟩
    · intro a ha
      rw [hs0] at ha
      rw [hall a ha]
      simp
    · rw [hs0]
      simp
    · rw [hs0]
      simp
    · left
      rw [hs0]
      show dispatch _ _ ≠ []
      rw [hH, hD, dispatch_cons_cons]
      exact List.cons_ne_nil _ _
  exact Stuck_not_collected _ _ _ _ s out
    (Stuck_exec _ _ _ _ sched s0 s hstuck hexec) hcol

end Goroute
